import Mathlib

/-!
Verification of the json-logs-to-adx ingestion scripts.

This file shallowly embeds the behaviour of three Python source files:

* `scripts/ingest_inline.py` — the CLI driver: resolves input, acquires a
  token, parses/validates/compacts JSON records, batches them and issues one
  HTTP management request per batch;
* `scripts/utils/stdin_utils.py` — the input resolver
  (`read_text_maybe_from_stdin`);
* `scripts/utils/adx_cli_auth.py` — the token provider (`get_adx_token` and
  `_get_access_token_once`).

Strings are modelled as `List Char`.  The Python standard-library JSON codec
(`json.loads` / `json.dumps(obj, separators=(",", ":"))`) is modelled by an
executable JSON parser and compact renderer over an inductive `Json` type
whose numbers are integers (floats are outside the model) and whose
serialised form escapes the quote and backslash characters; `Json.wf`
delimits the envelope (printable-ASCII string content, no duplicate keys)
inside which the model is faithful to the Python codec.  HTTP traffic is
modelled by the list of requests a run constructs together with an assumed
response, and process effects (exit code, stdout, stderr, stdin reads) are
explicit fields of the run results.
-/

/-! ### Characters and whitespace

`isWs` models the whitespace stripped by Python's `str.strip()` restricted to
the ASCII range (tab, LF, VT, FF, CR, space). -/

/-- The double-quote character. -/
def dq : Char := Char.ofNat 34

/-- The backslash character. -/
def bsl : Char := Char.ofNat 92

/-- The single-quote character (used by the Kusto control-command syntax). -/
def sqc : Char := Char.ofNat 39

/-- ASCII whitespace, as stripped by Python's `str.strip()`. -/
def isWs (c : Char) : Bool := c = ' ' || c = '\t' || c = '\n' || c = '\r' ||
  c = Char.ofNat 11 || c = Char.ofNat 12

/-- Drop leading whitespace (the left half of `str.strip()`). -/
def trimL (l : List Char) : List Char := l.dropWhile isWs

/-- Drop trailing whitespace (the right half of `str.strip()`). -/
def trimR : List Char → List Char
  | [] => []
  | c :: t =>
    match trimR t with
    | [] => if isWs c then [] else [c]
    | r => c :: r

/-- Model of Python's `str.strip()`: drop whitespace from both ends. -/
def trimB (l : List Char) : List Char := trimL (trimR l)

/-- Split a character list into lines at newline characters.  This models
`str.splitlines()` for '\n'-separated text, except that the model always
yields at least one (possibly empty) line and keeps a final empty line after
a trailing newline; the extra lines are blank and are skipped by every
consumer in this file. -/
def splitLines : List Char → List (List Char)
  | [] => [[]]
  | c :: t =>
    if c = '\n' then [] :: splitLines t
    else
      match splitLines t with
      | [] => [[c]]
      | h :: tl => (c :: h) :: tl

/-! ### Decimal digits

`natChars n` is the decimal numeral of `n` (most significant digit first),
matching Python's `str(n)` for natural numbers; `intChars` adds the sign,
matching `str(i)` for integers.  These are what `json.dumps` emits for an
`int` and what f-strings interpolate for status and exit codes. -/

/-- The character of a decimal digit value. -/
def digitChar (d : Nat) : Char :=
  match d with
  | 0 => '0' | 1 => '1' | 2 => '2' | 3 => '3' | 4 => '4'
  | 5 => '5' | 6 => '6' | 7 => '7' | 8 => '8' | _ => '9'

/-- The digit value of a decimal digit character (junk on non-digits). -/
def digitVal (c : Char) : Nat :=
  match c with
  | '0' => 0 | '1' => 1 | '2' => 2 | '3' => 3 | '4' => 4
  | '5' => 5 | '6' => 6 | '7' => 7 | '8' => 8 | _ => 9

/-- Digits of `n`, most significant first, prepended to `acc`; `fuel` bounds
the recursion (any `fuel ≥ n` is exact). -/
def natCharsAux : Nat → Nat → List Char → List Char
  | 0, _, acc => acc
  | f + 1, n, acc =>
    if n = 0 then acc else natCharsAux f (n / 10) (digitChar (n % 10) :: acc)

/-- Decimal numeral of a natural number, as Python's `str(n)`. -/
def natChars (n : Nat) : List Char :=
  if n = 0 then ['0'] else natCharsAux n n []

/-- Decimal numeral of an integer, as Python's `str(i)`. -/
def intChars (i : Int) : List Char :=
  if i < 0 then '-' :: natChars i.natAbs else natChars i.toNat

/-- Numeric value of a digit string (junk on non-digit strings). -/
def digitsToNat (l : List Char) : Nat :=
  l.foldl (fun a c => 10 * a + digitVal c) 0

/-! ### The JSON data model

`Json` models the values produced by Python's `json.loads` with integer
numbers (floats are outside the model).  Objects keep their fields in parse
order, matching the insertion order of a Python `dict` built by the parser. -/

inductive Json where
  | null
  | bool (b : Bool)
  | num (n : Int)
  | str (s : List Char)
  | arr (es : List Json)
  | obj (fs : List (List Char × Json))

instance : Inhabited Json := ⟨Json.null⟩

/-- Whether a value is a JSON object (Python `isinstance(obj, dict)`). -/
def Json.isObj : Json → Bool
  | .obj _ => true
  | _ => false

/-- A character that `json.dumps` emits literally inside a string and
`json.loads` accepts literally: printable ASCII.  (Outside this range the
Python codec uses `\uXXXX` escapes, which the model does not cover.) -/
def wfChar (c : Char) : Bool := decide (32 ≤ c.toNat) && decide (c.toNat < 127)

/-- The keys of an object's field list. -/
def keysOf : List (List Char × Json) → List (List Char)
  | [] => []
  | (k, _) :: fs => k :: keysOf fs

mutual
/-- The envelope in which the model is faithful to the Python JSON codec:
printable-ASCII string content and keys, and no duplicate keys (a Python
`dict` cannot hold duplicates). -/
def Json.wf : Json → Bool
  | .null => true
  | .bool _ => true
  | .num _ => true
  | .str s => s.all wfChar
  | .arr es => wfElems es
  | .obj fs => wfFields fs
def wfElems : List Json → Bool
  | [] => true
  | e :: es => e.wf && wfElems es
def wfFields : List (List Char × Json) → Bool
  | [] => true
  | (k, v) :: fs => k.all wfChar && v.wf && !(keysOf fs).contains k && wfFields fs
end

/-- Escape one character as `json.dumps` does for the characters it escapes
with a single backslash; within the `wf` envelope only the quote and the
backslash need escaping. -/
def escapeChar (c : Char) : List Char := if c = dq || c = bsl then [bsl, c] else [c]

/-- Escape a string body as `json.dumps` does (within the `wf` envelope). -/
def escape (s : List Char) : List Char := s.foldr (fun c acc => escapeChar c ++ acc) []

/-- The keyword `null`. -/
def nullChars : List Char := ['n', 'u', 'l', 'l']

/-- The keyword `true`. -/
def trueChars : List Char := ['t', 'r', 'u', 'e']

/-- The keyword `false`. -/
def falseChars : List Char := ['f', 'a', 'l', 's', 'e']

mutual
/-- Compact serialisation: `json.dumps(obj, separators=(",", ":"))`. -/
def Json.render : Json → List Char
  | .null => nullChars
  | .bool true => trueChars
  | .bool false => falseChars
  | .num n => intChars n
  | .str s => dq :: (escape s ++ [dq])
  | .arr es => '[' :: renderElems es
  | .obj fs => '{' :: renderFields fs
/-- Elements of an array, including the closing bracket. -/
def renderElems : List Json → List Char
  | [] => [']']
  | e :: es => Json.render e ++ renderSep es
/-- Continuation after one array element: separator-prefixed elements and the
closing bracket. -/
def renderSep : List Json → List Char
  | [] => [']']
  | e :: es => ',' :: (Json.render e ++ renderSep es)
/-- Fields of an object, including the closing brace. -/
def renderFields : List (List Char × Json) → List Char
  | [] => ['}']
  | (k, v) :: fs => dq :: (escape k ++ dq :: ':' :: (Json.render v ++ renderFieldsSep fs))
/-- Continuation after one object field. -/
def renderFieldsSep : List (List Char × Json) → List Char
  | [] => ['}']
  | (k, v) :: fs =>
    ',' :: dq :: (escape k ++ dq :: ':' :: (Json.render v ++ renderFieldsSep fs))
end

mutual
/-- Fuel needed to parse a rendered value: one unit per parser invocation
along the deepest path. -/
def jsize : Json → Nat
  | .arr es => 1 + jsizeE es
  | .obj fs => 1 + jsizeF fs
  | _ => 1
def jsizeE : List Json → Nat
  | [] => 1
  | e :: es => 1 + max (jsize e) (jsizeE es)
def jsizeF : List (List Char × Json) → Nat
  | [] => 1
  | (_, v) :: fs => 1 + max (jsize v) (jsizeF fs)
end

/-! ### The JSON parser

A recursive-descent parser over `List Char`, structural on a fuel counter so
that every use below kernel-evaluates.  `PMode` selects the production:
a value, array elements (first or continuation), or object fields (first or
continuation).  The parser accepts exactly the compact grammar `Json.render`
emits plus arbitrary digit runs for numbers; like `json.loads` it rejects
trailing commas, non-string keys and unterminated literals.  Interior
whitespace between tokens is not modelled (every caller in the sources
strips its input, and records are compared through this same parser). -/

inductive PMode where
  | v | e | t | o | ot

inductive PRes where
  | val (x : Json)
  | vs (es : List Json)
  | fds (fs : List (List Char × Json))

/-- Undo `escapeChar` for the escapes the renderer emits. -/
def unescChar (e : Char) : Option Char :=
  if e = dq then some dq else if e = bsl then some bsl else none

/-- Parse a string body after the opening quote, up to the closing quote. -/
def parseStringBody : List Char → Option (List Char × List Char)
  | [] => none
  | c :: r =>
    if c = dq then some ([], r)
    else if c = bsl then
      match r with
      | [] => none
      | e :: r2 =>
        match unescChar e, parseStringBody r2 with
        | some u, some (s, r3) => some (u :: s, r3)
        | _, _ => none
    else
      match parseStringBody r with
      | some (s, r2) => some (c :: s, r2)
      | none => none

/-- Expect a literal character sequence, returning the remainder. -/
def expectL : List Char → List Char → Option (List Char)
  | [], r => some r
  | _ :: _, [] => none
  | x :: xs, y :: r => if x = y then expectL xs r else none

/-- Parse a nonempty digit run into a natural number. -/
def parseNat (cs : List Char) : Option (Nat × List Char) :=
  let ds := cs.takeWhile Char.isDigit
  if ds.isEmpty then none else some (digitsToNat ds, cs.dropWhile Char.isDigit)

/-- Parse an optionally signed integer literal. -/
def parseNumber (cs : List Char) : Option (Json × List Char) :=
  match cs with
  | [] => none
  | c :: r =>
    if c = '-' then
      match parseNat r with
      | some (n, r2) => some (.num (-(n : Int)), r2)
      | none => none
    else
      match parseNat (c :: r) with
      | some (n, r2) => some (.num ((n : Int)), r2)
      | none => none

/-- The recursive-descent parser, structural on fuel. -/
def parseAny : Nat → PMode → List Char → Option (PRes × List Char)
  | 0, _, _ => none
  | f + 1, .v, cs =>
    match cs with
    | [] => none
    | c :: r =>
      if c = dq then
        match parseStringBody r with
        | some (s, r2) => some (.val (.str s), r2)
        | none => none
      else if c = '[' then
        match parseAny f .e r with
        | some (.vs es, r2) => some (.val (.arr es), r2)
        | _ => none
      else if c = '{' then
        match parseAny f .o r with
        | some (.fds fs, r2) => some (.val (.obj fs), r2)
        | _ => none
      else if c = 'n' then
        match expectL ['u', 'l', 'l'] r with
        | some r2 => some (.val .null, r2)
        | none => none
      else if c = 't' then
        match expectL ['r', 'u', 'e'] r with
        | some r2 => some (.val (.bool true), r2)
        | none => none
      else if c = 'f' then
        match expectL ['a', 'l', 's', 'e'] r with
        | some r2 => some (.val (.bool false), r2)
        | none => none
      else
        match parseNumber (c :: r) with
        | some (v, r2) => some (.val v, r2)
        | none => none
  | f + 1, .e, cs =>
    match cs with
    | [] => none
    | c :: r =>
      if c = ']' then some (.vs [], r)
      else
        match parseAny f .v (c :: r) with
        | some (.val v, r2) =>
          match parseAny f .t r2 with
          | some (.vs es, r3) => some (.vs (v :: es), r3)
          | _ => none
        | _ => none
  | f + 1, .t, cs =>
    match cs with
    | [] => none
    | c :: r =>
      if c = ']' then some (.vs [], r)
      else if c = ',' then
        match parseAny f .v r with
        | some (.val v, r2) =>
          match parseAny f .t r2 with
          | some (.vs es, r3) => some (.vs (v :: es), r3)
          | _ => none
        | _ => none
      else none
  | f + 1, .o, cs =>
    match cs with
    | [] => none
    | c :: r =>
      if c = '}' then some (.fds [], r)
      else if c = dq then
        match parseStringBody r with
        | some (k, r2) =>
          match r2 with
          | ':' :: r3 =>
            match parseAny f .v r3 with
            | some (.val v, r4) =>
              match parseAny f .ot r4 with
              | some (.fds fs, r5) => some (.fds ((k, v) :: fs), r5)
              | _ => none
            | _ => none
          | _ => none
        | none => none
      else none
  | f + 1, .ot, cs =>
    match cs with
    | [] => none
    | c :: r =>
      if c = '}' then some (.fds [], r)
      else if c = ',' then
        match r with
        | [] => none
        | c2 :: r2 =>
          if c2 = dq then
            match parseStringBody r2 with
            | some (k, r3) =>
              match r3 with
              | ':' :: r4 =>
                match parseAny f .v r4 with
                | some (.val v, r5) =>
                  match parseAny f .ot r5 with
                  | some (.fds fs, r6) => some (.fds ((k, v) :: fs), r6)
                  | _ => none
                | _ => none
              | _ => none
            | none => none
          else none
      else none

/-- Model of `json.loads` on a complete input: parse one value and require
the remainder to be empty. -/
def Json.parse (cs : List Char) : Option Json :=
  match parseAny (cs.length + 1) .v cs with
  | some (.val v, []) => some v
  | _ => none



/-- Contexts that may legally follow a complete JSON value inside a larger
document: end of input, or a separator/closer emitted by the renderer. -/
def okRest : List Char → Prop
  | [] => True
  | c :: _ => c = ',' ∨ c = ']' ∨ c = '}'

/-- The remainder cannot extend a digit run. -/
def noDigitHead : List Char → Prop
  | [] => True
  | c :: _ => c.isDigit = false

/-! ### The NDJSON batch ingestor

Model of the `if ndjson:` branch of `main` in `scripts/ingest_inline.py`
(lines 56-86), for the executions in which every batch send succeeds (on a
failed send the Python run aborts with the uncaught `send_batch` exception).
`main` first strips the whole input (line 27) and exits on an empty result;
`ndjsonMain` applies the same strip before splitting lines.  A line is
stripped, skipped if blank, parsed, required to be a JSON object, compacted
and appended to the pending batch; the batch is flushed as soon as its
length reaches `max 1 batch_size`, and a final partial batch is flushed
after the loop. -/

/-- Parse one NDJSON line as Python `json.loads` followed by the
`isinstance(obj, dict)` check, returning the compacted serialisation
(`json.dumps(obj, separators=(",", ":"))`) of valid object lines. -/
def parseRecord (s : List Char) : Option (List Char) :=
  match Json.parse s with
  | some (Json.obj fs) => some (Json.render (Json.obj fs))
  | _ => none

/-- State of the NDJSON loop: flushed batches, the pending batch being
accumulated (`compacted` in the source), the `total_sent` and `bad_lines`
counters, and the 1-based line numbers of the emitted malformed-line
warnings. -/
structure NdState where
  batches : List (List (List Char))
  pending : List (List Char)
  sent : Nat
  bad : Nat
  warns : List Nat

/-- Initial loop state. -/
def ndInit : NdState := ⟨[], [], 0, 0, []⟩

/-- One iteration of the NDJSON loop body for line number `idx`. -/
def ndStep (thr : Nat) (st : NdState) (idx : Nat) (ln : List Char) : NdState :=
  if (trimB ln).isEmpty then st
  else
    match parseRecord (trimB ln) with
    | none => ⟨st.batches, st.pending, st.sent, st.bad + 1, st.warns ++ [idx]⟩
    | some c =>
      if thr ≤ (st.pending ++ [c]).length then
        ⟨st.batches ++ [st.pending ++ [c]], [], st.sent + (st.pending ++ [c]).length,
          st.bad, st.warns⟩
      else ⟨st.batches, st.pending ++ [c], st.sent, st.bad, st.warns⟩

/-- The NDJSON loop over the numbered lines. -/
def ndGo (thr : Nat) : Nat → NdState → List (List Char) → NdState
  | _, st, [] => st
  | idx, st, ln :: rest => ndGo thr (idx + 1) (ndStep thr st idx ln) rest

/-- Flush the final partial batch (`if compacted: send_batch(compacted)`). -/
def ndFinish (st : NdState) : NdState :=
  if st.pending.isEmpty then st
  else ⟨st.batches ++ [st.pending], [], st.sent + st.pending.length, st.bad, st.warns⟩

/-- Run the NDJSON loop on a list of lines with flush threshold `thr`. -/
def ndProcess (thr : Nat) (lines : List (List Char)) : NdState :=
  ndFinish (ndGo thr 1 ndInit lines)

/-- The whole NDJSON branch: strip the input as `main` does, split into
lines, and batch with threshold `max(1, batch_size)`. -/
def ndjsonMain (input : List Char) (batchSize : Int) : NdState :=
  ndProcess (max 1 batchSize).toNat (splitLines (trimB input))

/-- Number of lines of the input that are non-blank after per-line
stripping. -/
def nonBlankLineCount (input : List Char) : Nat :=
  (splitLines input).countP (fun ln => !(trimB ln).isEmpty)

/-- Number of lines of the input that parse as JSON objects after per-line
stripping. -/
def validLineCount (input : List Char) : Nat :=
  (splitLines input).countP (fun ln => (parseRecord (trimB ln)).isSome)

/-- 1-based indices (starting at `idx`) of the malformed lines: non-blank
but not parseable as a JSON object. -/
def badIdx (idx : Nat) : List (List Char) → List Nat
  | [] => []
  | ln :: rest =>
    if !(trimB ln).isEmpty && !(parseRecord (trimB ln)).isSome then
      idx :: badIdx (idx + 1) rest
    else badIdx (idx + 1) rest

/-- Apply a function to the last element of a list. -/
def modLast {α : Type} (f : α → α) : List α → List α
  | [] => []
  | [a] => [f a]
  | a :: b :: t => a :: modLast f (b :: t)

/-! ### The ingestion request and the single-object mode

Model of the single-object branch of `main` (lines 88-119) and of the
response check shared with `send_batch` (lines 52-54).  A run is a function
of the already-resolved source text, the acquired token and the HTTP
response the endpoint would return; its observable outcome is the exit
code, the printed stdout/stderr lines and the list of HTTP requests
constructed and sent. -/

/-- The target descriptor taken from the CLI flags. -/
structure IngestCfg where
  clusterHost : List Char
  db : List Char
  table : List Char
  mapping : List Char

/-- One HTTP management-API request as built by the script. -/
structure IngestRequest where
  url : List Char
  bearer : List Char
  db : List Char
  csl : List Char

/-- The HTTP response assumed for a request. -/
structure HttpResponse where
  status : Nat
  body : List Char

/-- `https://{cluster_host}/v1/rest/mgmt`. -/
def mgmtUrl (host : List Char) : List Char :=
  "https://".data ++ host ++ "/v1/rest/mgmt".data

/-- The Kusto control command
`.ingest inline into table ['{table}'] with (format='multijson',
ingestionMappingReference='{mapping}') <| {payload}`. -/
def buildCsl (table mapping payload : List Char) : List Char :=
  ".ingest inline into table [".data ++ [sqc] ++ table ++ [sqc]
    ++ "] with (format=".data ++ [sqc] ++ "multijson".data ++ [sqc]
    ++ ", ingestionMappingReference=".data ++ [sqc] ++ mapping ++ [sqc]
    ++ ") <| ".data ++ payload

/-- The request `requests.post(url, headers=..., json={"db": db, "csl": csl})`. -/
def mkRequest (cfg : IngestCfg) (token payload : List Char) : IngestRequest :=
  ⟨mgmtUrl cfg.clusterHost, token, cfg.db, buildCsl cfg.table cfg.mapping payload⟩

/-- `INGEST FAILED {status_code}: {text}`. -/
def ingestFailMsg (status : Nat) (body : List Char) : List Char :=
  "INGEST FAILED ".data ++ natChars status ++ ": ".data ++ body

/-- Prefix of `ERROR: Invalid JSON input: {e}` (the exception text is not
modelled). -/
def invalidJsonMsg : List Char := "ERROR: Invalid JSON input".data

/-- Observable outcome of a run: exit code, printed lines, and the HTTP
requests that were issued. -/
structure RunOut where
  exitCode : Nat
  stdoutLines : List (List Char)
  stderrLines : List (List Char)
  requests : List IngestRequest

/-- The single-object branch of `main`: parse the source, reject any
non-object top-level value with exit code 2 before any network call,
otherwise compact, build the control command, send it, and map the HTTP
status to the outcome (`exit 1` with the status and body on stderr unless
the status is exactly 200, else `Ingest OK` on stdout). -/
def singleMain (cfg : IngestCfg) (token source : List Char) (resp : HttpResponse) : RunOut :=
  match Json.parse source with
  | some (Json.obj fs) =>
    if resp.status = 200 then
      ⟨0, ["Ingest OK".data], [], [mkRequest cfg token (Json.render (Json.obj fs))]⟩
    else
      ⟨1, [], [ingestFailMsg resp.status resp.body],
        [mkRequest cfg token (Json.render (Json.obj fs))]⟩
  | _ => ⟨2, [], [invalidJsonMsg], []⟩

/-- The response check of `send_batch` (NDJSON mode): any status other than
200 raises `RuntimeError(f"INGEST FAILED {r.status_code}: {r.text}")`, which
is uncaught and aborts the run. -/
def send_batch_check (resp : HttpResponse) : Except (List Char) Unit :=
  if resp.status = 200 then Except.ok () else Except.error (ingestFailMsg resp.status resp.body)

/-! ### The input resolver

Model of `read_text_maybe_from_stdin` in `scripts/utils/stdin_utils.py`.
The environment carries the observations the function could make of the
real stdin: `isTTY` is the value of `sys.stdin.isatty()` (an exception
during the call is folded into `true`, as the source does), `hasData` the
outcome of the `select` poll, `readFails` whether `sys.stdin.read()` would
raise, and `content` what it would return.  The effect trace records every
interaction with standard input, in order. -/

structure StdinEnv where
  isTTY : Bool
  hasData : Bool
  readFails : Bool
  content : List Char

/-- One interaction with standard input. -/
inductive StdinEffect where
  | ttyCheck
  | polled
  | readCall
deriving DecidableEq

/-- Result of the resolver: the effective text, or termination with exit
code 2 after writing `msg` to stderr. -/
inductive ResolveOut where
  | value (s : List Char)
  | exit2 (msg : List Char)

/-- The sentinel value `-`. -/
def dashChars : List Char := ['-']

/-- Model of `read_text_maybe_from_stdin(option_value, empty_stdin_error,
dash_alias, timeout_sec)` together with its stdin interactions. -/
def read_text_maybe_from_stdin (optionValue : Option (List Char))
    (emptyStdinError : List Char) (dashAlias : Bool) (env : StdinEnv) :
    ResolveOut × List StdinEffect :=
  let fromStdin : ResolveOut × List StdinEffect :=
    if env.isTTY then (ResolveOut.exit2 emptyStdinError, [StdinEffect.ttyCheck])
    else if env.hasData then
      if env.readFails then
        (ResolveOut.exit2 emptyStdinError,
          [StdinEffect.ttyCheck, StdinEffect.polled, StdinEffect.readCall])
      else
        (ResolveOut.value env.content,
          [StdinEffect.ttyCheck, StdinEffect.polled, StdinEffect.readCall])
    else (ResolveOut.exit2 emptyStdinError, [StdinEffect.ttyCheck, StdinEffect.polled])
  match optionValue with
  | none => fromStdin
  | some v => if dashAlias ∧ v = dashChars then fromStdin else (ResolveOut.value v, [])

/-! ### The token provider

Model of `_get_access_token_once` and `get_adx_token` in
`scripts/utils/adx_cli_auth.py`.  An `AzResult` is the observed outcome of
one `az` subprocess invocation (exit code, stdout, stderr).  Where the
source interpolates exception text into a message, the model keeps the
fixed message prefix. -/

/-- Outcome of one `az` subprocess call: `(returncode, stdout, stderr)`. -/
structure AzResult where
  code : Int
  out : List Char
  err : List Char

/-- Python truthiness of a JSON value (`if token:`). -/
def jTruthy : Json → Bool
  | .null => false
  | .bool b => b
  | .num n => decide (n ≠ 0)
  | .str s => !s.isEmpty
  | .arr es => !es.isEmpty
  | .obj fs => !fs.isEmpty

/-- Lookup in an object's field list where a later duplicate key wins, as in
the `dict` built by `json.loads`. -/
def lookupLast (k : List Char) : List (List Char × Json) → Option Json
  | [] => none
  | (k2, v) :: fs =>
    match lookupLast k fs with
    | some v2 => some v2
    | none => if k2 = k then some v else none

def accessTokenKey : List Char := "accessToken".data

def access_tokenKey : List Char := "access_token".data

/-- Possible outcomes of the token-extraction step
`data = json.loads(out); token = data.get("accessToken") or
data.get("access_token")`: a (truthy) token, a falsy/missing token field,
undecodable JSON, or a decoded non-dict value (on which `.get` raises an
uncaught `AttributeError`). -/
inductive TokenExtract where
  | tok (t : Json)
  | missingField
  | badJson
  | notDict

/-- Extract the token from one `az ... -o json` stdout. -/
def extractToken (out : List Char) : TokenExtract :=
  match Json.parse out with
  | none => TokenExtract.badJson
  | some (Json.obj fs) =>
    let v1 := (lookupLast accessTokenKey fs).getD Json.null
    let v := if jTruthy v1 then v1 else (lookupLast access_tokenKey fs).getD Json.null
    if jTruthy v then TokenExtract.tok v else TokenExtract.missingField
  | some _ => TokenExtract.notDict

def missingTokenMsg : List Char :=
  "Azure CLI returned success but token field missing".data

def missingTokenMsgScope : List Char :=
  "Azure CLI returned success but token field missing (scope mode)".data

/-- Prefix of `Failed to parse Azure CLI token JSON: {e}`. -/
def parseFailMsg : List Char := "Failed to parse Azure CLI token JSON".data

/-- Prefix of `Failed to parse Azure CLI token JSON (scope mode): {e}`. -/
def parseFailMsgScope : List Char :=
  "Failed to parse Azure CLI token JSON (scope mode)".data

/-- `msg = err.strip() or out.strip() or f"Azure CLI get-access-token failed
with code {code}"`, applied to the scope-mode invocation's result. -/
def azFallbackMsg (r : AzResult) : List Char :=
  if !(trimB r.err).isEmpty then trimB r.err
  else if !(trimB r.out).isEmpty then trimB r.out
  else "Azure CLI get-access-token failed with code ".data ++ intChars r.code

/-- Result of `_get_access_token_once`: a token or an error message, plus
whether the scope-mode invocation was attempted; `exn` is the uncaught
`AttributeError` path on decoded non-dict JSON. -/
inductive OnceOutcome where
  | ok (token : Json) (scopeTried : Bool)
  | err (msg : List Char) (scopeTried : Bool)
  | exn (scopeTried : Bool)

/-- Whether the scope-mode invocation was attempted. -/
def OnceOutcome.scopeTried : OnceOutcome → Bool
  | OnceOutcome.ok _ s => s
  | OnceOutcome.err _ s => s
  | OnceOutcome.exn s => s

/-- Model of `_get_access_token_once`, as a function of the outcomes `r1` of
the resource-mode invocation and `r2` of the scope-mode invocation (the
latter is only consulted when it is attempted): on a zero exit code of the
resource form the function returns from inside the `if code == 0:` block in
every case, so the scope form is attempted exactly when the resource form's
exit code is non-zero. -/
def get_access_token_once (r1 r2 : AzResult) : OnceOutcome :=
  if r1.code = 0 then
    match extractToken r1.out with
    | TokenExtract.tok t => OnceOutcome.ok t false
    | TokenExtract.missingField => OnceOutcome.err missingTokenMsg false
    | TokenExtract.badJson => OnceOutcome.err parseFailMsg false
    | TokenExtract.notDict => OnceOutcome.exn false
  else if r2.code = 0 then
    match extractToken r2.out with
    | TokenExtract.tok t => OnceOutcome.ok t true
    | TokenExtract.missingField => OnceOutcome.err missingTokenMsgScope true
    | TokenExtract.badJson => OnceOutcome.err parseFailMsgScope true
    | TokenExtract.notDict => OnceOutcome.exn true
  else OnceOutcome.err (azFallbackMsg r2) true

/-- Environment of one `get_adx_token` call: whether `az` is on the PATH,
the subprocess outcomes for the first cached-token query (resource and
scope forms), whether the interactive device-code login succeeds, and the
subprocess outcomes for the post-login query. -/
structure AuthEnv where
  azExists : Bool
  r1a : AzResult
  r1b : AzResult
  loginOk : Bool
  r2a : AzResult
  r2b : AzResult

/-- Externally visible steps of `get_adx_token`: one cached-token query
(`_get_access_token_once`), one interactive login, one settle delay
(`time.sleep`, in seconds). -/
inductive AuthEvent where
  | lookup
  | login
  | settle (secs : Nat)
deriving DecidableEq

/-- Result of `get_adx_token`: a token, a `RuntimeError` message, or an
exception propagated from the extraction step. -/
inductive TokenResult where
  | ok (token : Json)
  | failed (msg : List Char)
  | raised

def azMissingMsg : List Char :=
  "Azure CLI (az) is required but was not found on PATH.".data

def loginFailedMsg : List Char := "Azure CLI login failed or timed out.".data

def afterLoginMsg (e : List Char) : List Char :=
  "Failed to obtain ADX token after login: ".data ++ e

/-- Model of `get_adx_token` with its event trace: require `az`, try the
cached token, on failure run the interactive login, sleep one second, retry
the cached token exactly once, and give up. -/
def get_adx_token (env : AuthEnv) : TokenResult × List AuthEvent :=
  if env.azExists then
    match get_access_token_once env.r1a env.r1b with
    | OnceOutcome.ok t _ => (TokenResult.ok t, [AuthEvent.lookup])
    | OnceOutcome.exn _ => (TokenResult.raised, [AuthEvent.lookup])
    | OnceOutcome.err _ _ =>
      if env.loginOk then
        match get_access_token_once env.r2a env.r2b with
        | OnceOutcome.ok t _ =>
          (TokenResult.ok t, [AuthEvent.lookup, AuthEvent.login, AuthEvent.settle 1, AuthEvent.lookup])
        | OnceOutcome.exn _ =>
          (TokenResult.raised, [AuthEvent.lookup, AuthEvent.login, AuthEvent.settle 1, AuthEvent.lookup])
        | OnceOutcome.err e _ =>
          (TokenResult.failed (afterLoginMsg e),
            [AuthEvent.lookup, AuthEvent.login, AuthEvent.settle 1, AuthEvent.lookup])
      else (TokenResult.failed loginFailedMsg, [AuthEvent.lookup, AuthEvent.login])
  else (TokenResult.failed azMissingMsg, [])

/-- Number of interactive logins in a trace. -/
def countLogin (tr : List AuthEvent) : Nat := tr.countP (fun e => decide (e = AuthEvent.login))

/-- Number of cached-token queries in a trace. -/
def countLookup (tr : List AuthEvent) : Nat := tr.countP (fun e => decide (e = AuthEvent.lookup))

/-! ### Concrete inputs used by witnesses and counterexamples -/

/-- The NDJSON example input from the specification. -/
def exInput : List Char :=
  ['{', dq, 'a', dq, ':', '1', '}', '\n', '\n', '{', 'b', 'a', 'd', '}', '\n',
   '{', dq, 'b', dq, ':', '2', '}']

/-- An NDJSON input whose first line is blank and whose second line is
malformed. -/
def cexInput : List Char := ['\n', '{', 'b', 'a', 'd', '}']

/-- Compact serialisation of the first example record. -/
def recA : List Char := ['{', dq, 'a', dq, ':', '1', '}']

/-- Compact serialisation of the second example record. -/
def recB : List Char := ['{', dq, 'b', dq, ':', '2', '}']

/-- A target descriptor used by witnesses. -/
def wCfg : IngestCfg := ⟨"h.example".data, "D".data, "T".data, "M".data⟩

/-- A well-formed `az` token payload used by witnesses. -/
def goodTokenJson : List Char :=
  Json.render (Json.obj [(accessTokenKey, Json.str "tok".data)])


/-- An auth environment for witnesses: the first cached-token query fails
(both forms exit 1), the interactive login succeeds, and the post-login
query succeeds in resource mode. -/
def wAuthEnv : AuthEnv :=
  ⟨true, ⟨1, [], []⟩, ⟨1, [], []⟩, true, ⟨0, goodTokenJson, []⟩, ⟨0, [], []⟩⟩

/-! ### Theorems and verification results -/

theorem splitLines_ne_nil (l : List Char) : splitLines l ≠ [] := by
  induction l with
  | nil => simp [splitLines]
  | cons c t ih =>
    simp only [splitLines]
    split
    · simp
    · match h : splitLines t with
      | [] => simp
      | a :: r => simp

theorem splitLines_cons_newline (t : List Char) :
    splitLines ('\n' :: t) = [] :: splitLines t := by
  simp [splitLines]

theorem splitLines_cons_other {c : Char} (hc : c ≠ '\n') (t : List Char)
    {a : List Char} {r : List (List Char)} (h : splitLines t = a :: r) :
    splitLines (c :: t) = (c :: a) :: r := by
  simp only [splitLines, if_neg hc, h]

theorem digitVal_digitChar {d : Nat} (h : d < 10) : digitVal (digitChar d) = d := by
  interval_cases d <;> rfl

theorem digitChar_isDigit {d : Nat} (h : d < 10) : (digitChar d).isDigit = true := by
  interval_cases d <;> rfl

theorem natCharsAux_spec : ∀ (f n : Nat), n ≤ f → ∀ acc,
    natCharsAux f n acc = ((Nat.digits 10 n).map digitChar).reverse ++ acc := by
  intro f
  induction f with
  | zero =>
    intro n hn acc
    interval_cases n
    simp [natCharsAux]
  | succ f ih =>
    intro n hn acc
    by_cases h0 : n = 0
    · subst h0; simp [natCharsAux]
    · have hlt : n / 10 ≤ f := by omega
      rw [natCharsAux, if_neg h0, ih _ hlt,
        Nat.digits_def' (by omega : 1 < 10) (by omega : 0 < n)]
      simp

theorem natChars_eq (n : Nat) :
    natChars n = ((Nat.digits 10 n).map digitChar).reverse ++
      (if n = 0 then ['0'] else []) := by
  by_cases h0 : n = 0
  · subst h0; simp [natChars]
  · rw [natChars, if_neg h0, natCharsAux_spec n n (le_refl n)]
    simp [h0]

theorem natChars_all_digits (n : Nat) : ∀ c ∈ natChars n, c.isDigit = true := by
  intro c hc
  rw [natChars_eq] at hc
  rcases List.mem_append.mp hc with h | h
  · rw [List.mem_reverse, List.mem_map] at h
    obtain ⟨d, hd, rfl⟩ := h
    exact digitChar_isDigit (Nat.digits_lt_base (by omega) hd)
  · by_cases h0 : n = 0
    · simp [h0] at h; subst h; rfl
    · simp [h0] at h

theorem natChars_ne_nil (n : Nat) : natChars n ≠ [] := by
  by_cases h0 : n = 0
  · subst h0; simp [natChars]
  · rw [natChars_eq]
    have := (@Nat.digits_ne_nil_iff_ne_zero 10 n).mpr h0
    intro hcon
    rcases List.append_eq_nil.mp hcon with ⟨h1, _⟩
    rw [List.reverse_eq_nil_iff, List.map_eq_nil_iff] at h1
    exact this h1

theorem digitsToNat_natChars (n : Nat) : digitsToNat (natChars n) = n := by
  by_cases h0 : n = 0
  · subst h0; rfl
  · rw [natChars_eq, if_neg h0, List.append_nil, digitsToNat, List.foldl_reverse,
      List.foldr_map]
    have : ∀ L : List Nat, (∀ d ∈ L, d < 10) →
        L.foldr (fun d a => 10 * a + digitVal (digitChar d)) 0 = Nat.ofDigits 10 L := by
      intro L
      induction L with
      | nil => intro _; simp [Nat.ofDigits]
      | cons d L ih =>
        intro hall
        rw [List.foldr_cons, Nat.ofDigits_cons,
          ih (fun x hx => hall x (List.mem_cons_of_mem _ hx)),
          digitVal_digitChar (hall d (List.mem_cons_self _ _))]
        ring
    rw [this _ (fun d hd => Nat.digits_lt_base (by omega) hd), Nat.ofDigits_digits]

example : Json.parse ['{', dq, 'a', dq, ':', '1', '}'] =
    some (.obj [(['a'], .num 1)]) := rfl

example : Json.parse ['{', 'b', 'a', 'd', '}'] = none := rfl

example : Json.parse ['[', '1', ',', '-', '2', ']'] =
    some (.arr [.num 1, .num (-2)]) := rfl

example : Json.parse ('n' :: 'u' :: 'l' :: 'l' :: []) = some .null := rfl

example : Json.render (.obj [(['a'], .num 1)]) = ['{', dq, 'a', dq, ':', '1', '}'] := rfl

/-! #### Character classifications -/

theorem digit_ne {c : Char} (h : c.isDigit = true) :
    c ≠ dq ∧ c ≠ '[' ∧ c ≠ '{' ∧ c ≠ 'n' ∧ c ≠ 't' ∧ c ≠ 'f' ∧ c ≠ '-' ∧
      c ≠ ']' ∧ c ≠ '}' ∧ c ≠ ',' := by
  refine ⟨?_, ?_, ?_, ?_, ?_, ?_, ?_, ?_, ?_, ?_⟩ <;>
    (intro he; subst he; exact absurd h (by decide))

theorem natChars_head (m : Nat) :
    ∃ c t, natChars m = c :: t ∧ c.isDigit = true := by
  match h : natChars m with
  | [] => exact absurd h (natChars_ne_nil m)
  | c :: t =>
    exact ⟨c, t, rfl, natChars_all_digits m c (h ▸ List.mem_cons_self _ _)⟩

theorem okRest_noDigitHead {rest : List Char} (h : okRest rest) : noDigitHead rest := by
  match rest with
  | [] => trivial
  | c :: r =>
    rcases h with rfl | rfl | rfl <;> simp [noDigitHead]

/-! #### String-body round trip -/

theorem escape_cons (c : Char) (s : List Char) :
    escape (c :: s) = escapeChar c ++ escape s := rfl

theorem psb_close (r : List Char) : parseStringBody (dq :: r) = some ([], r) := by
  rw [parseStringBody.eq_def]
  simp

theorem psb_esc (e : Char) (r2 : List Char) :
    parseStringBody (bsl :: e :: r2) =
      (match unescChar e, parseStringBody r2 with
       | some u, some (s, r3) => some (u :: s, r3)
       | _, _ => none) := by
  rw [parseStringBody.eq_def]
  simp [bsl, dq]

theorem psb_plain {c : Char} (h1 : c ≠ dq) (h2 : c ≠ bsl) (r : List Char) :
    parseStringBody (c :: r) =
      (match parseStringBody r with
       | some (s, r2) => some (c :: s, r2)
       | none => none) := by
  rw [parseStringBody.eq_def]
  simp only [if_neg h1, if_neg h2]

theorem parseStringBody_escape : ∀ (s rest : List Char),
    parseStringBody (escape s ++ dq :: rest) = some (s, rest) := by
  intro s
  induction s with
  | nil => intro rest; exact psb_close rest
  | cons c s ih =>
    intro rest
    by_cases hc : c = dq ∨ c = bsl
    · have hesc : escapeChar c = [bsl, c] := by
        rcases hc with rfl | rfl <;> rfl
      rw [escape_cons, hesc, List.append_assoc, List.cons_append, List.cons_append,
        List.nil_append, psb_esc, ih]
      rcases hc with rfl | rfl <;> rfl
    · push_neg at hc
      have hesc : escapeChar c = [c] := by
        simp [escapeChar, hc.1, hc.2]
      rw [escape_cons, hesc, List.append_assoc, List.singleton_append,
        psb_plain hc.1 hc.2, ih]

/-! #### Number round trip -/

theorem takeWhile_digit_append : ∀ (ds : List Char), (∀ c ∈ ds, c.isDigit = true) →
    ∀ (rest : List Char), noDigitHead rest →
    (ds ++ rest).takeWhile Char.isDigit = ds ∧
      (ds ++ rest).dropWhile Char.isDigit = rest := by
  intro ds
  induction ds with
  | nil =>
    intro _ rest hrest
    match rest with
    | [] => simp
    | c :: r =>
      have hc : c.isDigit = false := hrest
      simp [List.takeWhile_cons, List.dropWhile_cons, hc]
  | cons d ds ih =>
    intro hall rest hrest
    have hd : d.isDigit = true := hall d (List.mem_cons_self _ _)
    have := ih (fun c hc => hall c (List.mem_cons_of_mem _ hc)) rest hrest
    simp [List.takeWhile_cons, List.dropWhile_cons, hd, this.1, this.2]

theorem parseNat_natChars (m : Nat) (rest : List Char) (h : noDigitHead rest) :
    parseNat (natChars m ++ rest) = some (m, rest) := by
  obtain ⟨ht, hd⟩ := takeWhile_digit_append (natChars m) (natChars_all_digits m) rest h
  rw [parseNat]
  simp only [ht, hd]
  rw [if_neg (by simp [List.isEmpty_iff, natChars_ne_nil])]
  rw [digitsToNat_natChars]

theorem parseNumber_intChars (n : Int) (rest : List Char) (h : noDigitHead rest) :
    parseNumber (intChars n ++ rest) = some (.num n, rest) := by
  by_cases hn : n < 0
  · rw [show intChars n ++ rest = '-' :: (natChars n.natAbs ++ rest) from by
      simp [intChars, hn]]
    rw [parseNumber.eq_def]
    simp only [if_pos rfl]
    rw [parseNat_natChars _ _ h]
    simp
    rw [abs_of_neg hn]
    ring
  · obtain ⟨c, t, hct, hcd⟩ := natChars_head n.toNat
    obtain ⟨-, -, -, -, -, -, hminus, -, -, -⟩ := digit_ne hcd
    rw [show intChars n ++ rest = c :: (t ++ rest) from by
      simp [intChars, hn, hct]]
    rw [parseNumber.eq_def]
    simp only [if_neg hminus]
    rw [show c :: (t ++ rest) = natChars n.toNat ++ rest from by simp [hct]]
    rw [parseNat_natChars _ _ h]
    have h2 : (n.toNat : Int) = n := by omega
    simp [h2]

/-! #### Renderer head shape and sizes -/

theorem render_head (v : Json) :
    ∃ c t, Json.render v = c :: t ∧ c ≠ ']' ∧ c ≠ '}' ∧ c ≠ ',' := by
  cases v with
  | num n =>
    by_cases hn : n < 0
    · refine ⟨'-', natChars n.natAbs, by simp [Json.render, intChars, hn], ?_, ?_, ?_⟩ <;>
        decide
    · obtain ⟨c, t, hct, hcd⟩ := natChars_head n.toNat
      obtain ⟨-, -, -, -, -, -, -, h1, h2, h3⟩ := digit_ne hcd
      exact ⟨c, t, by simp [Json.render, intChars, hn, hct], h1, h2, h3⟩
  | null => refine ⟨'n', _, rfl, ?_, ?_, ?_⟩ <;> decide
  | bool b =>
    cases b with
    | true => refine ⟨'t', _, rfl, ?_, ?_, ?_⟩ <;> decide
    | false => refine ⟨'f', _, rfl, ?_, ?_, ?_⟩ <;> decide
  | str s => refine ⟨dq, _, rfl, ?_, ?_, ?_⟩ <;> decide
  | arr es => refine ⟨'[', _, rfl, ?_, ?_, ?_⟩ <;> decide
  | obj fs => refine ⟨'{', _, rfl, ?_, ?_, ?_⟩ <;> decide

theorem render_length_pos (v : Json) : 1 ≤ (Json.render v).length := by
  obtain ⟨c, t, h, -, -, -⟩ := render_head v
  simp [h]

theorem renderSep_length_pos (es : List Json) : 1 ≤ (renderSep es).length := by
  cases es <;> simp [renderSep]

theorem renderFieldsSep_length_pos (fs : List (List Char × Json)) :
    1 ≤ (renderFieldsSep fs).length := by
  cases fs with
  | nil => simp [renderFieldsSep]
  | cons kv fs => obtain ⟨k, v⟩ := kv; simp [renderFieldsSep]

theorem jsize_pos (v : Json) : 1 ≤ jsize v := by
  cases v <;> simp [jsize]

theorem jsizeE_pos (es : List Json) : 1 ≤ jsizeE es := by
  cases es <;> simp [jsizeE]

theorem jsizeF_pos (fs : List (List Char × Json)) : 1 ≤ jsizeF fs := by
  cases fs with
  | nil => simp [jsizeF]
  | cons kv fs => obtain ⟨k, v⟩ := kv; simp [jsizeF]

mutual
theorem jsize_le_render : ∀ v : Json, jsize v ≤ (Json.render v).length + 1
  | .null => by simp only [jsize]; omega
  | .bool b => by simp only [jsize]; omega
  | .num n => by simp only [jsize]; omega
  | .str s => by simp only [jsize]; omega
  | .arr es => by
    have h := jsizeE_le_renderElems es
    simp only [jsize, Json.render, List.length_cons]
    omega
  | .obj fs => by
    have h := jsizeF_le_renderFields fs
    simp only [jsize, Json.render, List.length_cons]
    omega
theorem jsizeE_le_renderElems : ∀ es : List Json, jsizeE es ≤ (renderElems es).length + 1
  | [] => by simp only [jsizeE]; omega
  | e :: es => by
    have h1 := jsize_le_render e
    have h2 := jsizeE_le_renderSep es
    have h3 := render_length_pos e
    have h4 := renderSep_length_pos es
    simp only [jsizeE, renderElems, List.length_append]
    omega
theorem jsizeE_le_renderSep : ∀ es : List Json, jsizeE es ≤ (renderSep es).length + 1
  | [] => by simp only [jsizeE]; omega
  | e :: es => by
    have h1 := jsize_le_render e
    have h2 := jsizeE_le_renderSep es
    simp only [jsizeE, renderSep, List.length_cons, List.length_append]
    omega
theorem jsizeF_le_renderFields :
    ∀ fs : List (List Char × Json), jsizeF fs ≤ (renderFields fs).length + 1
  | [] => by simp only [jsizeF]; omega
  | (k, v) :: fs => by
    have h1 := jsize_le_render v
    have h2 := jsizeF_le_renderFieldsSep fs
    simp only [jsizeF, renderFields, List.length_cons, List.length_append]
    omega
theorem jsizeF_le_renderFieldsSep :
    ∀ fs : List (List Char × Json), jsizeF fs ≤ (renderFieldsSep fs).length + 1
  | [] => by simp only [jsizeF]; omega
  | (k, v) :: fs => by
    have h1 := jsize_le_render v
    have h2 := jsizeF_le_renderFieldsSep fs
    simp only [jsizeF, renderFieldsSep, List.length_cons, List.length_append]
    omega
end

/-! #### One-step unfoldings of the parser -/

theorem pa_v_null (f : Nat) (rest : List Char) :
    parseAny (f + 1) PMode.v ('n' :: 'u' :: 'l' :: 'l' :: rest) =
      some (PRes.val Json.null, rest) := by
  rw [parseAny.eq_def]
  simp [dq, expectL]

theorem pa_v_true (f : Nat) (rest : List Char) :
    parseAny (f + 1) PMode.v ('t' :: 'r' :: 'u' :: 'e' :: rest) =
      some (PRes.val (Json.bool true), rest) := by
  rw [parseAny.eq_def]
  simp [dq, expectL]

theorem pa_v_false (f : Nat) (rest : List Char) :
    parseAny (f + 1) PMode.v ('f' :: 'a' :: 'l' :: 's' :: 'e' :: rest) =
      some (PRes.val (Json.bool false), rest) := by
  rw [parseAny.eq_def]
  simp [dq, expectL]

theorem pa_v_dq (f : Nat) (x : List Char) :
    parseAny (f + 1) PMode.v (dq :: x) =
      (match parseStringBody x with
       | some (s, r2) => some (PRes.val (Json.str s), r2)
       | none => none) := by
  rw [parseAny.eq_def]
  simp

theorem pa_v_lbrack (f : Nat) (x : List Char) :
    parseAny (f + 1) PMode.v ('[' :: x) =
      (match parseAny f PMode.e x with
       | some (PRes.vs es, r2) => some (PRes.val (Json.arr es), r2)
       | _ => none) := by
  rw [parseAny.eq_def]
  simp [dq]

theorem pa_v_lbrace (f : Nat) (x : List Char) :
    parseAny (f + 1) PMode.v ('{' :: x) =
      (match parseAny f PMode.o x with
       | some (PRes.fds fs, r2) => some (PRes.val (Json.obj fs), r2)
       | _ => none) := by
  rw [parseAny.eq_def]
  simp [dq]

theorem pa_v_default (f : Nat) {c : Char} (h1 : c ≠ dq) (h2 : c ≠ '[') (h3 : c ≠ '{')
    (h4 : c ≠ 'n') (h5 : c ≠ 't') (h6 : c ≠ 'f') (r : List Char) :
    parseAny (f + 1) PMode.v (c :: r) =
      (match parseNumber (c :: r) with
       | some (v, r2) => some (PRes.val v, r2)
       | none => none) := by
  rw [parseAny.eq_def]
  simp only [if_neg h1, if_neg h2, if_neg h3, if_neg h4, if_neg h5, if_neg h6]

theorem pa_e_close (f : Nat) (x : List Char) :
    parseAny (f + 1) PMode.e (']' :: x) = some (PRes.vs [], x) := by
  rw [parseAny.eq_def]
  simp

theorem pa_e_notclose (f : Nat) {c : Char} (hc : c ≠ ']') (r : List Char) :
    parseAny (f + 1) PMode.e (c :: r) =
      (match parseAny f PMode.v (c :: r) with
       | some (PRes.val v, r2) =>
         (match parseAny f PMode.t r2 with
          | some (PRes.vs es, r3) => some (PRes.vs (v :: es), r3)
          | _ => none)
       | _ => none) := by
  rw [parseAny.eq_def]
  simp only [if_neg hc]

theorem pa_t_close (f : Nat) (x : List Char) :
    parseAny (f + 1) PMode.t (']' :: x) = some (PRes.vs [], x) := by
  rw [parseAny.eq_def]
  simp

theorem pa_t_comma (f : Nat) (x : List Char) :
    parseAny (f + 1) PMode.t (',' :: x) =
      (match parseAny f PMode.v x with
       | some (PRes.val v, r2) =>
         (match parseAny f PMode.t r2 with
          | some (PRes.vs es, r3) => some (PRes.vs (v :: es), r3)
          | _ => none)
       | _ => none) := by
  rw [parseAny.eq_def]
  simp

theorem pa_o_close (f : Nat) (x : List Char) :
    parseAny (f + 1) PMode.o ('}' :: x) = some (PRes.fds [], x) := by
  rw [parseAny.eq_def]
  simp

theorem pa_o_key (f : Nat) (x : List Char) :
    parseAny (f + 1) PMode.o (dq :: x) =
      (match parseStringBody x with
       | some (k, r2) =>
         (match r2 with
          | ':' :: r3 =>
            (match parseAny f PMode.v r3 with
             | some (PRes.val v, r4) =>
               (match parseAny f PMode.ot r4 with
                | some (PRes.fds fs, r5) => some (PRes.fds ((k, v) :: fs), r5)
                | _ => none)
             | _ => none)
          | _ => none)
       | none => none) := by
  rw [parseAny.eq_def]
  simp [dq]

theorem pa_ot_close (f : Nat) (x : List Char) :
    parseAny (f + 1) PMode.ot ('}' :: x) = some (PRes.fds [], x) := by
  rw [parseAny.eq_def]
  simp

theorem pa_ot_commakey (f : Nat) (y : List Char) :
    parseAny (f + 1) PMode.ot (',' :: dq :: y) =
      (match parseStringBody y with
       | some (k, r3) =>
         (match r3 with
          | ':' :: r4 =>
            (match parseAny f PMode.v r4 with
             | some (PRes.val v, r5) =>
               (match parseAny f PMode.ot r5 with
                | some (PRes.fds fs, r6) => some (PRes.fds ((k, v) :: fs), r6)
                | _ => none)
             | _ => none)
          | _ => none)
       | none => none) := by
  rw [parseAny.eq_def]
  simp [dq]

theorem minus_head_ne : ('-' : Char) ≠ dq ∧ ('-' : Char) ≠ '[' ∧ ('-' : Char) ≠ '{'
    ∧ ('-' : Char) ≠ 'n' ∧ ('-' : Char) ≠ 't' ∧ ('-' : Char) ≠ 'f' := by
  decide

theorem okRest_renderSep (es : List Json) (x : List Char) : okRest (renderSep es ++ x) := by
  cases es <;> simp [renderSep, okRest]

theorem okRest_renderFieldsSep (fs : List (List Char × Json)) (x : List Char) :
    okRest (renderFieldsSep fs ++ x) := by
  cases fs with
  | nil => simp [renderFieldsSep, okRest]
  | cons kv fs => obtain ⟨k, v⟩ := kv; simp [renderFieldsSep, okRest]

/-- The parser inverts the renderer: with enough fuel, parsing a rendered
value (in any context that cannot extend it) returns exactly that value.
Proved for all five parser modes simultaneously by induction on fuel. -/
theorem parse_render_aux : ∀ fuel : Nat,
    (∀ v rest, jsize v ≤ fuel → okRest rest →
      parseAny fuel PMode.v (Json.render v ++ rest) = some (PRes.val v, rest)) ∧
    (∀ es rest, jsizeE es ≤ fuel →
      parseAny fuel PMode.e (renderElems es ++ rest) = some (PRes.vs es, rest)) ∧
    (∀ es rest, jsizeE es ≤ fuel →
      parseAny fuel PMode.t (renderSep es ++ rest) = some (PRes.vs es, rest)) ∧
    (∀ fs rest, jsizeF fs ≤ fuel →
      parseAny fuel PMode.o (renderFields fs ++ rest) = some (PRes.fds fs, rest)) ∧
    (∀ fs rest, jsizeF fs ≤ fuel →
      parseAny fuel PMode.ot (renderFieldsSep fs ++ rest) = some (PRes.fds fs, rest)) := by
  intro fuel
  induction fuel with
  | zero =>
    refine ⟨?_, ?_, ?_, ?_, ?_⟩
    · intro v rest hs _; exact absurd hs (by have := jsize_pos v; omega)
    · intro es rest hs; exact absurd hs (by have := jsizeE_pos es; omega)
    · intro es rest hs; exact absurd hs (by have := jsizeE_pos es; omega)
    · intro fs rest hs; exact absurd hs (by have := jsizeF_pos fs; omega)
    · intro fs rest hs; exact absurd hs (by have := jsizeF_pos fs; omega)
  | succ f ih =>
    obtain ⟨ihv, ihe, iht, iho, ihot⟩ := ih
    refine ⟨?_, ?_, ?_, ?_, ?_⟩
    · intro v rest hs hrest
      cases v with
      | null =>
        rw [show Json.render Json.null ++ rest = 'n' :: 'u' :: 'l' :: 'l' :: rest from rfl]
        exact pa_v_null f rest
      | bool b =>
        cases b with
        | false =>
          rw [show Json.render (Json.bool false) ++ rest
              = 'f' :: 'a' :: 'l' :: 's' :: 'e' :: rest from rfl]
          exact pa_v_false f rest
        | true =>
          rw [show Json.render (Json.bool true) ++ rest
              = 't' :: 'r' :: 'u' :: 'e' :: rest from rfl]
          exact pa_v_true f rest
      | num n =>
        have hnd := okRest_noDigitHead hrest
        by_cases hn : n < 0
        · have hpn : parseNumber ('-' :: (natChars n.natAbs ++ rest))
              = some (Json.num n, rest) := by
            have h2 := parseNumber_intChars n rest hnd
            rwa [show intChars n ++ rest = '-' :: (natChars n.natAbs ++ rest) from by
              simp [intChars, hn]] at h2
          rw [show Json.render (Json.num n) ++ rest = '-' :: (natChars n.natAbs ++ rest) from by
            simp [Json.render, intChars, hn]]
          obtain ⟨m1, m2, m3, m4, m5, m6⟩ := minus_head_ne
          rw [pa_v_default f m1 m2 m3 m4 m5 m6, hpn]
        · obtain ⟨c, t, hct, hcd⟩ := natChars_head n.toNat
          obtain ⟨hd1, hd2, hd3, hd4, hd5, hd6, -, -, -, -⟩ := digit_ne hcd
          have hpn : parseNumber (c :: (t ++ rest)) = some (Json.num n, rest) := by
            have h2 := parseNumber_intChars n rest hnd
            rwa [show intChars n ++ rest = c :: (t ++ rest) from by
              simp [intChars, hn, hct]] at h2
          rw [show Json.render (Json.num n) ++ rest = c :: (t ++ rest) from by
            simp [Json.render, intChars, hn, hct]]
          rw [pa_v_default f hd1 hd2 hd3 hd4 hd5 hd6, hpn]
      | str s =>
        rw [show Json.render (Json.str s) ++ rest = dq :: (escape s ++ dq :: rest) from by
          simp [Json.render]]
        rw [pa_v_dq, parseStringBody_escape]
      | arr es =>
        have h1 : jsizeE es ≤ f := by simp only [jsize] at hs; omega
        rw [show Json.render (Json.arr es) ++ rest = '[' :: (renderElems es ++ rest) from by
          simp [Json.render]]
        rw [pa_v_lbrack, ihe es rest h1]
      | obj fs =>
        have h1 : jsizeF fs ≤ f := by simp only [jsize] at hs; omega
        rw [show Json.render (Json.obj fs) ++ rest = '{' :: (renderFields fs ++ rest) from by
          simp [Json.render]]
        rw [pa_v_lbrace, iho fs rest h1]
    · intro es rest hs
      cases es with
      | nil =>
        rw [show renderElems [] ++ rest = ']' :: rest from rfl]
        exact pa_e_close f rest
      | cons e es =>
        obtain ⟨c, t, hct, hc1, -, -⟩ := render_head e
        have hje : jsize e ≤ f := by simp only [jsizeE] at hs; omega
        have hjes : jsizeE es ≤ f := by simp only [jsizeE] at hs; omega
        have hv := ihv e (renderSep es ++ rest) hje (okRest_renderSep es rest)
        have ht := iht es rest hjes
        rw [show renderElems (e :: es) ++ rest = c :: (t ++ (renderSep es ++ rest)) from by
          simp [renderElems, hct]]
        rw [pa_e_notclose f hc1]
        rw [show c :: (t ++ (renderSep es ++ rest))
            = Json.render e ++ (renderSep es ++ rest) from by simp [hct]]
        simp only [hv, ht]
    · intro es rest hs
      cases es with
      | nil =>
        rw [show renderSep [] ++ rest = ']' :: rest from rfl]
        exact pa_t_close f rest
      | cons e es =>
        have hje : jsize e ≤ f := by simp only [jsizeE] at hs; omega
        have hjes : jsizeE es ≤ f := by simp only [jsizeE] at hs; omega
        have hv := ihv e (renderSep es ++ rest) hje (okRest_renderSep es rest)
        have ht := iht es rest hjes
        rw [show renderSep (e :: es) ++ rest
            = ',' :: (Json.render e ++ (renderSep es ++ rest)) from by simp [renderSep]]
        rw [pa_t_comma]
        simp only [hv, ht]
    · intro fs rest hs
      cases fs with
      | nil =>
        rw [show renderFields [] ++ rest = '}' :: rest from rfl]
        exact pa_o_close f rest
      | cons kv fs =>
        obtain ⟨k, v⟩ := kv
        have hjv : jsize v ≤ f := by simp only [jsizeF] at hs; omega
        have hjfs : jsizeF fs ≤ f := by simp only [jsizeF] at hs; omega
        have hv := ihv v (renderFieldsSep fs ++ rest) hjv (okRest_renderFieldsSep fs rest)
        have hot := ihot fs rest hjfs
        rw [show renderFields ((k, v) :: fs) ++ rest
            = dq :: (escape k ++ dq ::
                (':' :: (Json.render v ++ (renderFieldsSep fs ++ rest)))) from by
          simp [renderFields]]
        rw [pa_o_key, parseStringBody_escape]
        simp only [hv, hot]
    · intro fs rest hs
      cases fs with
      | nil =>
        rw [show renderFieldsSep [] ++ rest = '}' :: rest from rfl]
        exact pa_ot_close f rest
      | cons kv fs =>
        obtain ⟨k, v⟩ := kv
        have hjv : jsize v ≤ f := by simp only [jsizeF] at hs; omega
        have hjfs : jsizeF fs ≤ f := by simp only [jsizeF] at hs; omega
        have hv := ihv v (renderFieldsSep fs ++ rest) hjv (okRest_renderFieldsSep fs rest)
        have hot := ihot fs rest hjfs
        rw [show renderFieldsSep ((k, v) :: fs) ++ rest
            = ',' :: dq :: (escape k ++ dq ::
                (':' :: (Json.render v ++ (renderFieldsSep fs ++ rest)))) from by
          simp [renderFieldsSep]]
        rw [pa_ot_commakey, parseStringBody_escape]
        simp only [hv, hot]

/-- Claim C9: for every valid JSON value — in particular every JSON object —
compacting it with the model of `json.dumps(obj, separators=(",", ":"))` and
parsing the result with the model of `json.loads` yields a value equal to
the original (round trip). -/
theorem claim_C9 (v : Json) (h : v.wf = true) :
    Json.parse (Json.render v) = some v := by
  have hp := (parse_render_aux ((Json.render v).length + 1)).1 v []
    (jsize_le_render v) trivial
  rw [List.append_nil] at hp
  simp only [Json.parse, hp]

/-- Witness for C9 at the object `{"a":1}`. -/
theorem claim_C9_wit : (Json.obj [(['a'], Json.num 1)]).wf = true ∧
    Json.parse (Json.render (Json.obj [(['a'], Json.num 1)])) =
      some (Json.obj [(['a'], Json.num 1)]) :=
  ⟨by decide, claim_C9 (Json.obj [(['a'], Json.num 1)]) (by decide)⟩

/-! #### Stripping and line splitting

The whole-input strip performed by `main` removes only leading/trailing
whitespace, so the per-line counts used by the NDJSON claims are unchanged
by it.  The lemmas below make this precise for any per-line predicate that
only depends on the stripped line and rejects blank lines. -/

theorem trimR_eq_nil_of_allws {l : List Char} (h : l.all isWs = true) : trimR l = [] := by
  induction l with
  | nil => rfl
  | cons c t ih =>
    rw [List.all_cons, Bool.and_eq_true] at h
    rw [trimR, ih h.2, if_pos h.1]

theorem allws_of_trimR_eq_nil : ∀ {l : List Char}, trimR l = [] → l.all isWs = true := by
  intro l
  induction l with
  | nil => intro _; rfl
  | cons c t ih =>
    intro h
    rw [trimR] at h
    match ht : trimR t with
    | [] =>
      rw [ht] at h
      by_cases hc : isWs c = true
      · rw [List.all_cons, Bool.and_eq_true]
        exact ⟨hc, ih ht⟩
      · rw [if_neg hc] at h
        exact absurd h (by simp)
    | a :: r =>
      rw [ht] at h
      exact absurd h (by simp)

theorem trimR_allws_nil : ∀ {l : List Char}, (trimR l).all isWs = true → trimR l = [] := by
  intro l
  induction l with
  | nil => intro _; rfl
  | cons c t ih =>
    intro h
    match ht : trimR t with
    | [] =>
      simp only [trimR, ht] at h ⊢
      by_cases hc : isWs c = true
      · rw [if_pos hc]
      · rw [if_neg hc] at h ⊢
        rw [List.all_cons, Bool.and_eq_true] at h
        exact absurd h.1 hc
    | a :: r =>
      simp only [trimR, ht] at h
      rw [List.all_cons, Bool.and_eq_true] at h
      have h2 : trimR t = [] := ih (by rw [ht]; exact h.2)
      rw [ht] at h2
      exact absurd h2 (by simp)

theorem trimB_eq_nil_of_allws {l : List Char} (h : l.all isWs = true) : trimB l = [] := by
  rw [trimB, trimR_eq_nil_of_allws h]
  rfl

theorem allws_of_trimB_eq_nil {l : List Char} (h : trimB l = []) : l.all isWs = true := by
  rw [trimB, trimL, List.dropWhile_eq_nil_iff] at h
  have : (trimR l).all isWs = true := by
    rw [List.all_eq_true]
    intro c hc
    exact h c hc
  exact allws_of_trimR_eq_nil (trimR_allws_nil this)

theorem trimL_append_allws {x : List Char} (h : x.all isWs = true) (y : List Char) :
    trimL (x ++ y) = trimL y := by
  induction x with
  | nil => rfl
  | cons c t ih =>
    rw [List.all_cons, Bool.and_eq_true] at h
    rw [List.cons_append, trimL, List.dropWhile_cons, if_pos h.1]
    exact ih h.2

theorem trimR_append_allws {w : List Char} (h : w.all isWs = true) (y : List Char) :
    trimR (y ++ w) = trimR y := by
  induction y with
  | nil => rw [List.nil_append, trimR_eq_nil_of_allws h]; rfl
  | cons c t ih =>
    rw [List.cons_append, trimR, ih, trimR]

theorem trimR_append_of_ne_nil {y : List Char} (h : trimR y ≠ []) (x : List Char) :
    trimR (x ++ y) = x ++ trimR y := by
  induction x with
  | nil => rfl
  | cons c t ih =>
    rw [List.cons_append, trimR, ih]
    match hy : trimR y with
    | [] => exact absurd hy h
    | a :: r =>
      match ht : t ++ trimR y with
      | [] =>
        rw [hy] at ht
        exact absurd ht (by simp)
      | b :: s => simp

theorem trimB_append_right {w : List Char} (h : w.all isWs = true) (y : List Char) :
    trimB (y ++ w) = trimB y := by
  rw [trimB, trimR_append_allws h, trimB]

theorem trimB_append_left {x : List Char} (h : x.all isWs = true) (y : List Char) :
    trimB (x ++ y) = trimB y := by
  by_cases hy : trimR y = []
  · have h1 : (x ++ y).all isWs = true := by
      rw [List.all_append, Bool.and_eq_true]
      exact ⟨h, allws_of_trimR_eq_nil hy⟩
    rw [trimB_eq_nil_of_allws h1, trimB, hy]
    rfl
  · rw [trimB, trimR_append_of_ne_nil hy, trimL_append_allws h, trimB]

theorem modLast_cons₂ {α : Type} (f : α → α) (a b : α) (t : List α) :
    modLast f (a :: b :: t) = a :: modLast f (b :: t) := rfl

theorem splitLines_append : ∀ (l m : List Char) (h : List Char) (t : List (List Char)),
    splitLines m = h :: t →
    splitLines (l ++ m) = modLast (· ++ h) (splitLines l) ++ t := by
  intro l
  induction l with
  | nil =>
    intro m h t hm
    rw [List.nil_append, hm]
    rfl
  | cons c l ih =>
    intro m h t hm
    by_cases hc : c = '\n'
    · subst hc
      rw [List.cons_append, splitLines_cons_newline, splitLines_cons_newline,
        ih m h t hm]
      obtain ⟨a, r, har⟩ : ∃ a r, splitLines l = a :: r := by
        match hx : splitLines l with
        | [] => exact absurd hx (splitLines_ne_nil l)
        | a :: r => exact ⟨a, r, rfl⟩
      rw [har, modLast_cons₂]
      rfl
    · obtain ⟨a, r, har⟩ : ∃ a r, splitLines l = a :: r := by
        match hx : splitLines l with
        | [] => exact absurd hx (splitLines_ne_nil l)
        | a :: r => exact ⟨a, r, rfl⟩
      obtain ⟨a2, r2, har2⟩ : ∃ a2 r2, splitLines (l ++ m) = a2 :: r2 := by
        match hx : splitLines (l ++ m) with
        | [] => exact absurd hx (splitLines_ne_nil (l ++ m))
        | a2 :: r2 => exact ⟨a2, r2, rfl⟩
      rw [List.cons_append, splitLines_cons_other hc _ har2,
        splitLines_cons_other hc _ har]
      have hind := ih m h t hm
      rw [har2, har] at hind
      match r with
      | [] =>
        rw [show modLast (· ++ h) [a] = [a ++ h] from rfl, List.singleton_append,
          List.cons.injEq] at hind
        obtain ⟨rfl, rfl⟩ := hind
        rfl
      | b :: s =>
        rw [modLast_cons₂, List.cons_append, List.cons.injEq] at hind
        obtain ⟨rfl, rfl⟩ := hind
        rw [modLast_cons₂]
        rfl

theorem splitLines_exists_cons (l : List Char) : ∃ a r, splitLines l = a :: r := by
  match hx : splitLines l with
  | [] => exact absurd hx (splitLines_ne_nil l)
  | a :: r => exact ⟨a, r, rfl⟩

theorem splitLines_allws : ∀ {l : List Char}, l.all isWs = true →
    ∀ ln ∈ splitLines l, ln.all isWs = true := by
  intro l
  induction l with
  | nil =>
    intro _ ln hln
    simp only [splitLines, List.mem_singleton] at hln
    subst hln
    rfl
  | cons c t ih =>
    intro h ln hln
    rw [List.all_cons, Bool.and_eq_true] at h
    by_cases hc : c = '\n'
    · subst hc
      rw [splitLines_cons_newline] at hln
      rcases List.mem_cons.mp hln with rfl | hln2
      · rfl
      · exact ih h.2 ln hln2
    · obtain ⟨a, r, har⟩ := splitLines_exists_cons t
      rw [splitLines_cons_other hc _ har] at hln
      rcases List.mem_cons.mp hln with rfl | hln2
      · rw [List.all_cons, Bool.and_eq_true]
        exact ⟨h.1, ih h.2 a (har ▸ List.mem_cons_self _ _)⟩
      · exact ih h.2 ln (har ▸ List.mem_cons_of_mem _ hln2)

theorem trimR_decomp : ∀ l : List Char, ∃ w, l = trimR l ++ w ∧ w.all isWs = true := by
  intro l
  induction l with
  | nil => exact ⟨[], rfl, rfl⟩
  | cons c t ih =>
    obtain ⟨w, hw, hws⟩ := ih
    match ht : trimR t with
    | [] =>
      by_cases hc : isWs c = true
      · refine ⟨c :: t, ?_, ?_⟩
        · simp only [trimR, ht]
          rw [if_pos hc]
          rfl
        · rw [List.all_cons, Bool.and_eq_true]
          refine ⟨hc, ?_⟩
          have h2 : t = w := by rw [hw, ht]; rfl
          rw [h2]
          exact hws
      · refine ⟨w, ?_, hws⟩
        simp only [trimR, ht]
        rw [if_neg hc]
        have h2 : t = w := by rw [hw, ht]; rfl
        rw [List.singleton_append, h2]
    | a :: r =>
      refine ⟨w, ?_, hws⟩
      simp only [trimR, ht]
      have h2 : t = (a :: r) ++ w := by rw [hw, ht]
      rw [List.cons_append, ← h2]

theorem countP_allws_zero {q : List Char → Bool} (hq : q [] = false)
    {L : List (List Char)} (h : ∀ ln ∈ L, ln.all isWs = true) :
    L.countP (fun ln => q (trimB ln)) = 0 := by
  rw [List.countP_eq_zero]
  intro ln hln
  rw [trimB_eq_nil_of_allws (h ln hln), hq]
  simp

theorem countP_modLast {p : List Char → Bool} {f : List Char → List Char}
    (hf : ∀ a, p (f a) = p a) : ∀ L, (modLast f L).countP p = L.countP p
  | [] => rfl
  | [a] => by
    simp only [modLast, List.countP_cons, List.countP_nil, hf a]
  | a :: b :: t => by
    rw [modLast_cons₂, List.countP_cons, List.countP_cons, countP_modLast hf (b :: t)]

theorem countP_modLast_allws {q : List Char → Bool} (hq : q [] = false) (h0 : List Char) :
    ∀ L, L ≠ [] → (∀ ln ∈ L, ln.all isWs = true) →
    (modLast (· ++ h0) L).countP (fun ln => q (trimB ln))
      = (if q (trimB h0) then 1 else 0)
  | [] => by intro h _; exact absurd rfl h
  | [a] => by
    intro _ hall
    have ha := hall a (List.mem_cons_self _ _)
    simp only [modLast, List.countP_cons, List.countP_nil]
    rw [trimB_append_left ha h0]
    simp
  | a :: b :: t => by
    intro _ hall
    have ha := hall a (List.mem_cons_self _ _)
    rw [modLast_cons₂, List.countP_cons,
      countP_modLast_allws hq h0 (b :: t) (by simp)
        (fun ln hln => hall ln (List.mem_cons_of_mem _ hln))]
    have hz : trimB a = [] := trimB_eq_nil_of_allws ha
    simp [hz, hq]

theorem linesCountP_append_ws {q : List Char → Bool} (hq : q [] = false)
    {w : List Char} (hw : w.all isWs = true) (y : List Char) :
    (splitLines (y ++ w)).countP (fun ln => q (trimB ln))
      = (splitLines y).countP (fun ln => q (trimB ln)) := by
  obtain ⟨hw0, tw, hsw⟩ := splitLines_exists_cons w
  rw [splitLines_append y w hw0 tw hsw, List.countP_append]
  have hlines := splitLines_allws hw
  rw [hsw] at hlines
  have h1 : tw.countP (fun ln => q (trimB ln)) = 0 :=
    countP_allws_zero hq (fun ln hln => hlines ln (List.mem_cons_of_mem _ hln))
  have h2 : ∀ a : List Char,
      (fun ln => q (trimB ln)) (a ++ hw0) = (fun ln => q (trimB ln)) a := by
    intro a
    simp only
    rw [trimB_append_right (hlines hw0 (List.mem_cons_self _ _)) a]
  rw [h1, countP_modLast h2 (splitLines y)]
  omega

theorem linesCountP_ws_append {q : List Char → Bool} (hq : q [] = false)
    {x : List Char} (hx : x.all isWs = true) (y : List Char) :
    (splitLines (x ++ y)).countP (fun ln => q (trimB ln))
      = (splitLines y).countP (fun ln => q (trimB ln)) := by
  obtain ⟨hy0, ty, hsy⟩ := splitLines_exists_cons y
  rw [splitLines_append x y hy0 ty hsy, List.countP_append]
  have hlines := splitLines_allws hx
  rw [countP_modLast_allws hq hy0 (splitLines x) (splitLines_ne_nil x) hlines, hsy,
    List.countP_cons]
  by_cases h0 : q (trimB hy0) = true <;> simp [h0] <;> omega

/-- Stripping the whole input does not change any per-line count that only
depends on the stripped line and rejects blank lines. -/
theorem linesCountP_trimB {q : List Char → Bool} (hq : q [] = false) (l : List Char) :
    (splitLines (trimB l)).countP (fun ln => q (trimB ln))
      = (splitLines l).countP (fun ln => q (trimB ln)) := by
  obtain ⟨w, hlw, hws⟩ := trimR_decomp l
  have h1 : trimR l = (trimR l).takeWhile isWs ++ trimB l :=
    (List.takeWhile_append_dropWhile isWs (trimR l)).symm
  have hx : ((trimR l).takeWhile isWs).all isWs = true := by
    rw [List.all_eq_true]
    intro c hc
    exact List.mem_takeWhile_imp hc
  calc (splitLines (trimB l)).countP (fun ln => q (trimB ln))
      = (splitLines ((trimR l).takeWhile isWs ++ trimB l)).countP
          (fun ln => q (trimB ln)) := (linesCountP_ws_append hq hx _).symm
    _ = (splitLines (trimR l)).countP (fun ln => q (trimB ln)) := by rw [← h1]
    _ = (splitLines (trimR l ++ w)).countP (fun ln => q (trimB ln)) :=
        (linesCountP_append_ws hq hws _).symm
    _ = (splitLines l).countP (fun ln => q (trimB ln)) := by rw [← hlw]

/-! #### The NDJSON loop invariants -/

theorem parseRecord_nil : parseRecord [] = none := rfl

theorem ndFinish_warns (st : NdState) : (ndFinish st).warns = st.warns := by
  rw [ndFinish]
  by_cases h : st.pending.isEmpty = true
  · rw [if_pos h]
  · rw [if_neg h]

theorem ndFinish_sent_add_bad (st : NdState) :
    (ndFinish st).sent + (ndFinish st).bad = st.sent + st.pending.length + st.bad := by
  rw [ndFinish]
  by_cases h : st.pending.isEmpty = true
  · rw [if_pos h]
    have h0 : st.pending.length = 0 := by
      rw [List.isEmpty_iff] at h
      rw [h]
      rfl
    omega
  · rw [if_neg h]

theorem ndGo_counts (thr : Nat) : ∀ (lines : List (List Char)) (idx : Nat) (st : NdState),
    (ndGo thr idx st lines).sent + (ndGo thr idx st lines).pending.length
        + (ndGo thr idx st lines).bad
      = st.sent + st.pending.length + st.bad
        + lines.countP (fun ln => !(trimB ln).isEmpty) := by
  intro lines
  induction lines with
  | nil => intro idx st; simp [ndGo]
  | cons ln rest ih =>
    intro idx st
    simp only [ndGo]
    rw [ih, List.countP_cons]
    by_cases hb : (trimB ln).isEmpty = true
    · have hstep : ndStep thr st idx ln = st := by simp [ndStep, hb]
      rw [hstep]
      simp [hb]
    · rcases hpr : parseRecord (trimB ln) with _ | c
      · have hstep : ndStep thr st idx ln
            = ⟨st.batches, st.pending, st.sent, st.bad + 1, st.warns ++ [idx]⟩ := by
          simp [ndStep, hb, hpr]
        rw [hstep]
        simp [hb]
        omega
      · by_cases hth : thr ≤ (st.pending ++ [c]).length
        · have hstep : ndStep thr st idx ln
              = ⟨st.batches ++ [st.pending ++ [c]], [],
                  st.sent + (st.pending ++ [c]).length, st.bad, st.warns⟩ := by
            have hth2 : thr ≤ st.pending.length + 1 := by simpa using hth
            simp [ndStep, hb, hpr, hth2]
          rw [hstep]
          simp [hb]
          omega
        · have hstep : ndStep thr st idx ln
              = ⟨st.batches, st.pending ++ [c], st.sent, st.bad, st.warns⟩ := by
            have hth2 : ¬thr ≤ st.pending.length + 1 := by simpa using hth
            simp [ndStep, hb, hpr, hth2]
          rw [hstep]
          simp [hb]
          omega

theorem ndGo_warns (thr : Nat) : ∀ (lines : List (List Char)) (idx : Nat) (st : NdState),
    (ndGo thr idx st lines).warns = st.warns ++ badIdx idx lines := by
  intro lines
  induction lines with
  | nil => intro idx st; simp [ndGo, badIdx]
  | cons ln rest ih =>
    intro idx st
    simp only [ndGo]
    rw [ih, badIdx]
    by_cases hb : (trimB ln).isEmpty = true
    · have hstep : ndStep thr st idx ln = st := by simp [ndStep, hb]
      rw [hstep, if_neg (by simp [hb])]
    · rcases hpr : parseRecord (trimB ln) with _ | c
      · have hstep : ndStep thr st idx ln
            = ⟨st.batches, st.pending, st.sent, st.bad + 1, st.warns ++ [idx]⟩ := by
          simp [ndStep, hb, hpr]
        rw [hstep, if_pos (by simp [hb, hpr])]
        simp
      · by_cases hth : thr ≤ (st.pending ++ [c]).length
        · have hstep : ndStep thr st idx ln
              = ⟨st.batches ++ [st.pending ++ [c]], [],
                  st.sent + (st.pending ++ [c]).length, st.bad, st.warns⟩ := by
            have hth2 : thr ≤ st.pending.length + 1 := by simpa using hth
            simp [ndStep, hb, hpr, hth2]
          rw [hstep, if_neg (by simp [hb, hpr])]
        · have hstep : ndStep thr st idx ln
              = ⟨st.batches, st.pending ++ [c], st.sent, st.bad, st.warns⟩ := by
            have hth2 : ¬thr ≤ st.pending.length + 1 := by simpa using hth
            simp [ndStep, hb, hpr, hth2]
          rw [hstep, if_neg (by simp [hb, hpr])]

/-- Claim C3: in NDJSON mode, when every batch send succeeds, the number of
records sent plus the number of malformed lines skipped equals the number
of non-blank (after per-line stripping) lines of the input; blank lines are
counted in neither total. -/
theorem claim_C3 (input : List Char) (batchSize : Int) :
    (ndjsonMain input batchSize).sent + (ndjsonMain input batchSize).bad
      = nonBlankLineCount input := by
  have h := ndGo_counts ((max 1 batchSize).toNat) (splitLines (trimB input)) 1 ndInit
  have hbr := @linesCountP_trimB (fun s => !s.isEmpty) rfl input
  rw [ndjsonMain, ndProcess, ndFinish_sent_add_bad]
  rw [nonBlankLineCount]
  have h0 : ndInit.sent + ndInit.pending.length + ndInit.bad = 0 := rfl
  omega

/-- Claim C10: in NDJSON mode, any batch-size value less than 1 behaves exactly
as batch size 1, because the flush threshold is `max(1, batch_size)`. -/
theorem claim_C10 (input : List Char) (batchSize : Int) (h : batchSize ≤ 0) :
    ndjsonMain input batchSize = ndjsonMain input 1 := by
  rw [ndjsonMain, ndjsonMain, max_eq_left (by omega : batchSize ≤ 1),
    max_self]

/-- Witness for C10 at batch size `-3` on the example input. -/
theorem claim_C10_wit : (-3 : Int) ≤ 0 ∧ ndjsonMain exInput (-3) = ndjsonMain exInput 1 :=
  ⟨by decide, claim_C10 exInput (-3) (by decide)⟩

/-- Claim C5 (amended): in NDJSON mode a malformed line is skipped with a warning
carrying its 1-based line number, counted over the lines of the input after
the whole-input strip `main` performs (interior blank lines are counted;
leading and trailing blank lines are not), and the run continues.  For the
example input `{"a":1}\n\n{bad}\n{"b":2}` with batch size 10, exactly one
batch of two records is sent, the single warning references line 3, and the
final message reports 2 sent and 1 skipped. -/
theorem claim_C5_amended :
    (∀ input batchSize, (ndjsonMain input batchSize).warns
      = badIdx 1 (splitLines (trimB input)))
    ∧ (ndjsonMain exInput 10).batches = [[recA, recB]]
    ∧ (ndjsonMain exInput 10).sent = 2
    ∧ (ndjsonMain exInput 10).bad = 1
    ∧ (ndjsonMain exInput 10).warns = [3] := by
  refine ⟨?_, rfl, rfl, rfl, rfl⟩
  intro input batchSize
  rw [ndjsonMain, ndProcess, ndFinish_warns,
    ndGo_warns ((max 1 batchSize).toNat) (splitLines (trimB input)) 1 ndInit]
  rfl

/-- Counterexample to C5 as stated: for the input `\n{bad}` (line 1 blank,
line 2 malformed) the warning references line 1, not line 2, because `main`
strips the whole input before splitting it into lines, so leading blank
lines are not counted by the warning's line numbers. -/
theorem claim_C5_cex :
    (ndjsonMain cexInput 10).warns = [1] ∧ (ndjsonMain cexInput 10).warns ≠ [2] :=
  ⟨rfl, by decide⟩

theorem ndGo_batches (thr : Nat) : ∀ (lines : List (List Char)) (idx : Nat) (st : NdState),
    st.pending.length < thr → (∀ b ∈ st.batches, b.length = thr) →
    (ndGo thr idx st lines).pending.length < thr
    ∧ (∀ b ∈ (ndGo thr idx st lines).batches, b.length = thr)
    ∧ thr * (ndGo thr idx st lines).batches.length + (ndGo thr idx st lines).pending.length
      = thr * st.batches.length + st.pending.length
        + lines.countP (fun ln => (parseRecord (trimB ln)).isSome) := by
  intro lines
  induction lines with
  | nil =>
    intro idx st h1 h2
    exact ⟨h1, h2, by simp [ndGo]⟩
  | cons ln rest ih =>
    intro idx st h1 h2
    simp only [ndGo]
    rw [List.countP_cons]
    by_cases hb : (trimB ln).isEmpty = true
    · have hstep : ndStep thr st idx ln = st := by simp [ndStep, hb]
      have hcount : (parseRecord (trimB ln)).isSome = false := by
        rw [List.isEmpty_iff] at hb
        rw [hb]
        rfl
      rw [hstep]
      obtain ⟨g1, g2, g3⟩ := ih (idx + 1) st h1 h2
      exact ⟨g1, g2, by rw [g3]; simp [hcount]⟩
    · rcases hpr : parseRecord (trimB ln) with _ | c
      · have hstep : ndStep thr st idx ln
            = ⟨st.batches, st.pending, st.sent, st.bad + 1, st.warns ++ [idx]⟩ := by
          simp [ndStep, hb, hpr]
        rw [hstep]
        obtain ⟨g1, g2, g3⟩ := ih (idx + 1)
          ⟨st.batches, st.pending, st.sent, st.bad + 1, st.warns ++ [idx]⟩ h1 h2
        exact ⟨g1, g2, by rw [g3]; simp [hpr]⟩
      · by_cases hth : thr ≤ (st.pending ++ [c]).length
        · have hlen : st.pending.length + 1 = thr := by
            simp only [List.length_append, List.length_singleton] at hth
            omega
          have hstep : ndStep thr st idx ln
              = ⟨st.batches ++ [st.pending ++ [c]], [],
                  st.sent + (st.pending ++ [c]).length, st.bad, st.warns⟩ := by
            have hth2 : thr ≤ st.pending.length + 1 := by simpa using hth
            simp [ndStep, hb, hpr, hth2]
          rw [hstep]
          have h2b : ∀ b ∈ st.batches ++ [st.pending ++ [c]], b.length = thr := by
            intro b hbmem
            rcases List.mem_append.mp hbmem with hm | hm
            · exact h2 b hm
            · rw [List.mem_singleton] at hm
              subst hm
              simp only [List.length_append, List.length_singleton]
              omega
          obtain ⟨g1, g2, g3⟩ := ih (idx + 1)
            ⟨st.batches ++ [st.pending ++ [c]], [],
              st.sent + (st.pending ++ [c]).length, st.bad, st.warns⟩
            (by simp only [List.length_nil]; omega) h2b
          refine ⟨g1, g2, ?_⟩
          rw [g3]
          dsimp only
          simp [hpr, List.length_append]
          have hmul : thr * (st.batches.length + 1) = thr * st.batches.length + thr := by
            ring
          omega
        · have hstep : ndStep thr st idx ln
              = ⟨st.batches, st.pending ++ [c], st.sent, st.bad, st.warns⟩ := by
            have hth2 : ¬thr ≤ st.pending.length + 1 := by simpa using hth
            simp [ndStep, hb, hpr, hth2]
          rw [hstep]
          have h1b : (st.pending ++ [c]).length < thr := by
            simp only [List.length_append, List.length_singleton] at hth ⊢
            omega
          obtain ⟨g1, g2, g3⟩ := ih (idx + 1)
            ⟨st.batches, st.pending ++ [c], st.sent, st.bad, st.warns⟩ h1b h2
          refine ⟨g1, g2, ?_⟩
          rw [g3]
          dsimp only
          simp [hpr, List.length_append]
          omega

/-- Claim C4: in NDJSON mode with batch size `N ≥ 1`, when every batch send
succeeds, exactly `⌈K/N⌉ = (K + N - 1) / N` HTTP requests are issued for an
input with `K` valid object lines; every request except possibly the last
carries exactly `N` records, and the last carries between 1 and `N`
records. -/
theorem claim_C4 (input : List Char) (N : Nat) (hN : 1 ≤ N) :
    (ndjsonMain input (N : Int)).batches.length = (validLineCount input + N - 1) / N
    ∧ (∀ b ∈ (ndjsonMain input (N : Int)).batches.dropLast, b.length = N)
    ∧ (∀ b, (ndjsonMain input (N : Int)).batches.getLast? = some b →
        1 ≤ b.length ∧ b.length ≤ N) := by
  have hthr : (max 1 ((N : Int))).toNat = N := by
    rw [max_eq_right (by exact_mod_cast hN), Int.toNat_natCast]
  rw [ndjsonMain, hthr, ndProcess]
  obtain ⟨g1, g2, g3⟩ := ndGo_batches N (splitLines (trimB input)) 1 ndInit
    (by simp [ndInit]; omega) (by intro b hb; simp [ndInit] at hb)
  have hK : validLineCount input
      = (splitLines (trimB input)).countP (fun ln => (parseRecord (trimB ln)).isSome) := by
    rw [validLineCount]
    exact (@linesCountP_trimB (fun s => (parseRecord s).isSome) rfl input).symm
  have hinit : ndInit.batches.length = 0 ∧ ndInit.pending.length = 0 := ⟨rfl, rfl⟩
  simp only [hinit.1, hinit.2, Nat.mul_zero, Nat.zero_add] at g3
  rw [ndFinish]
  by_cases hp : (ndGo N 1 ndInit (splitLines (trimB input))).pending.isEmpty = true
  · rw [if_pos hp]
    have hp0 : (ndGo N 1 ndInit (splitLines (trimB input))).pending.length = 0 := by
      rw [List.isEmpty_iff] at hp
      rw [hp]
      rfl
    refine ⟨?_, ?_, ?_⟩
    · have harith : validLineCount input + N - 1
          = N * (ndGo N 1 ndInit (splitLines (trimB input))).batches.length + (N - 1) := by
        rw [hK]
        omega
      rw [harith, Nat.mul_add_div (by omega), Nat.div_eq_of_lt (by omega)]
      omega
    · intro b hb
      exact g2 b (List.dropLast_subset _ hb)
    · intro b hb
      have hbl : (ndGo N 1 ndInit (splitLines (trimB input))).batches.dropLast ++ [b]
          = (ndGo N 1 ndInit (splitLines (trimB input))).batches :=
        List.dropLast_append_getLast? b (Option.mem_def.mpr hb)
      have hmem : b ∈ (ndGo N 1 ndInit (splitLines (trimB input))).batches := by
        rw [← hbl]
        simp
      have := g2 b hmem
      omega
  · rw [if_neg hp]
    have hp1 : 1 ≤ (ndGo N 1 ndInit (splitLines (trimB input))).pending.length := by
      rcases hgp : (ndGo N 1 ndInit (splitLines (trimB input))).pending with _ | ⟨x, xs⟩
      · rw [hgp] at hp
        exact absurd rfl hp
      · simp [hgp]
    refine ⟨?_, ?_, ?_⟩
    · dsimp only
      rw [List.length_append, List.length_singleton]
      have harith : validLineCount input + N - 1
          = N * ((ndGo N 1 ndInit (splitLines (trimB input))).batches.length + 1)
            + ((ndGo N 1 ndInit (splitLines (trimB input))).pending.length - 1) := by
        rw [hK]
        have hmul : N * ((ndGo N 1 ndInit (splitLines (trimB input))).batches.length + 1)
            = N * (ndGo N 1 ndInit (splitLines (trimB input))).batches.length + N := by
          ring
        omega
      rw [harith, Nat.mul_add_div (by omega), Nat.div_eq_of_lt (by omega)]
    · intro b hb
      dsimp only at hb
      rw [List.dropLast_concat] at hb
      exact g2 b hb
    · intro b hb
      dsimp only at hb
      rw [List.getLast?_concat] at hb
      injection hb with hb2
      subst hb2
      exact ⟨hp1, by omega⟩

/-- Witness for C4 at batch size 2 on the example input (two valid lines,
so one full batch of two records is issued). -/
theorem claim_C4_wit : 1 ≤ 2
    ∧ (ndjsonMain exInput ((2 : Nat) : Int)).batches.length
      = (validLineCount exInput + 2 - 1) / 2 :=
  ⟨by decide, (claim_C4 exInput 2 (by decide)).1⟩

/-- Claim C1: every HTTP response to an ingestion POST with a status outside the
2xx range makes the run fail with exit code 1, surfacing the status code
and response body verbatim (on stderr in single-object mode, in the raised
`RuntimeError` of `send_batch` in NDJSON mode); conversely an HTTP 200
response in single-object mode succeeds with stdout exactly `Ingest OK`.
(The code is stricter than the claim: it fails on any status other than
exactly 200, which entails the claimed behaviour on every non-2xx status.) -/
theorem claim_C1 (cfg : IngestCfg) (token source : List Char) (resp : HttpResponse)
    (fs : List (List Char × Json)) (hobj : Json.parse source = some (Json.obj fs)) :
    ((resp.status < 200 ∨ 300 ≤ resp.status) →
      (singleMain cfg token source resp).exitCode = 1
      ∧ (singleMain cfg token source resp).stderrLines
          = [ingestFailMsg resp.status resp.body]
      ∧ send_batch_check resp = Except.error (ingestFailMsg resp.status resp.body))
    ∧ (resp.status = 200 →
      (singleMain cfg token source resp).exitCode = 0
      ∧ (singleMain cfg token source resp).stdoutLines = ["Ingest OK".data]) := by
  constructor
  · intro h2xx
    have hne : ¬resp.status = 200 := by omega
    simp only [singleMain, hobj]
    rw [if_neg hne]
    refine ⟨rfl, rfl, ?_⟩
    rw [send_batch_check, if_neg hne]
  · intro h200
    simp only [singleMain, hobj]
    rw [if_pos h200]
    exact ⟨rfl, rfl⟩

/-- Witness for C1 at status 404 (failure path) and status 200 (success
path) on the compact object `{"a":1}`. -/
theorem claim_C1_wit :
    Json.parse recA = some (Json.obj [(['a'], Json.num 1)])
    ∧ ((404 : Nat) < 200 ∨ 300 ≤ (404 : Nat))
    ∧ (singleMain wCfg "tok".data recA ⟨404, "nope".data⟩).exitCode = 1
    ∧ (singleMain wCfg "tok".data recA ⟨200, []⟩).stdoutLines = ["Ingest OK".data] := by
  refine ⟨rfl, by decide, ?_, ?_⟩
  · exact ((claim_C1 wCfg "tok".data recA ⟨404, "nope".data⟩
      [(['a'], Json.num 1)] rfl).1 (by decide)).1
  · exact ((claim_C1 wCfg "tok".data recA ⟨200, []⟩
      [(['a'], Json.num 1)] rfl).2 rfl).2

/-- Claim C6: for every input whose top-level JSON value is not an object,
single-object mode exits with code 2 before issuing any HTTP request (and
prints nothing to stdout). -/
theorem claim_C6 (cfg : IngestCfg) (token source : List Char) (resp : HttpResponse)
    (v : Json) (hparse : Json.parse source = some v) (hnotobj : v.isObj = false) :
    (singleMain cfg token source resp).exitCode = 2
    ∧ (singleMain cfg token source resp).requests = []
    ∧ (singleMain cfg token source resp).stdoutLines = [] := by
  cases v with
  | obj fs => exact absurd hnotobj (by simp [Json.isObj])
  | null => simp [singleMain, hparse]
  | bool b => simp [singleMain, hparse]
  | num n => simp [singleMain, hparse]
  | str s => simp [singleMain, hparse]
  | arr es => simp [singleMain, hparse]

/-- Witness for C6 at the non-object input `null`. -/
theorem claim_C6_wit :
    Json.parse "null".data = some Json.null
    ∧ Json.null.isObj = false
    ∧ (singleMain wCfg "tok".data "null".data ⟨200, []⟩).exitCode = 2
    ∧ (singleMain wCfg "tok".data "null".data ⟨200, []⟩).requests = [] := by
  refine ⟨rfl, rfl, ?_, ?_⟩
  · exact (claim_C6 wCfg "tok".data "null".data ⟨200, []⟩ Json.null rfl rfl).1
  · exact (claim_C6 wCfg "tok".data "null".data ⟨200, []⟩ Json.null rfl rfl).2.1

/-- Claim C7: for every explicit `--json` value other than the sentinel `-`, the
input resolver returns the value unchanged and performs no interaction with
standard input at all (no TTY check, no readiness poll, no read). -/
theorem claim_C7 (v emptyStdinError : List Char) (dashAlias : Bool) (env : StdinEnv)
    (h : v ≠ dashChars) :
    read_text_maybe_from_stdin (some v) emptyStdinError dashAlias env
      = (ResolveOut.value v, []) := by
  simp only [read_text_maybe_from_stdin]
  rw [if_neg (fun hc => h hc.2)]

/-- Witness for C7 at the explicit value `x` with a data-bearing non-TTY
stdin (which is nonetheless never touched). -/
theorem claim_C7_wit : "x".data ≠ dashChars
    ∧ read_text_maybe_from_stdin (some "x".data) "e".data true ⟨false, true, false, "y".data⟩
      = (ResolveOut.value "x".data, []) :=
  ⟨by decide, claim_C7 "x".data "e".data true ⟨false, true, false, "y".data⟩ (by decide)⟩

/-- Claim C8: the token provider performs at most one interactive login and at
most two cached-token queries per call; whenever the first query fails and
the login succeeds, the call performs exactly query, login, 1-second settle
delay, query — returning the token if the retried query succeeds and
failing fatally (with no further events) otherwise. -/
theorem claim_C8 (env : AuthEnv) :
    countLogin (get_adx_token env).2 ≤ 1
    ∧ countLookup (get_adx_token env).2 ≤ 2
    ∧ (∀ m s, env.azExists = true →
        get_access_token_once env.r1a env.r1b = OnceOutcome.err m s →
        env.loginOk = true →
        (get_adx_token env).2
            = [AuthEvent.lookup, AuthEvent.login, AuthEvent.settle 1, AuthEvent.lookup]
        ∧ (∀ t s2, get_access_token_once env.r2a env.r2b = OnceOutcome.ok t s2 →
            (get_adx_token env).1 = TokenResult.ok t)
        ∧ (∀ m2 s2, get_access_token_once env.r2a env.r2b = OnceOutcome.err m2 s2 →
            (get_adx_token env).1 = TokenResult.failed (afterLoginMsg m2))) := by
  by_cases haz : env.azExists = true
  · rcases h1 : get_access_token_once env.r1a env.r1b with ⟨t, s⟩ | ⟨m, s⟩ | s
    · refine ⟨?_, ?_, ?_⟩
      · simp [get_adx_token, haz, h1, countLogin]
      · simp [get_adx_token, haz, h1, countLookup]
      · intro m' s' _ hcon
        exact absurd hcon (by simp)
    · by_cases hlog : env.loginOk = true
      · rcases h2 : get_access_token_once env.r2a env.r2b with ⟨t2, s2⟩ | ⟨m2, s2⟩ | s2
        · refine ⟨?_, ?_, ?_⟩
          · simp [get_adx_token, haz, h1, hlog, h2, countLogin]
          · simp [get_adx_token, haz, h1, hlog, h2, countLookup]
          · intro m' s' _ _ _
            refine ⟨by simp [get_adx_token, haz, h1, hlog, h2], ?_, ?_⟩
            · intro t' s2' h2'
              injection h2' with ht _
              subst ht
              simp [get_adx_token, haz, h1, hlog, h2]
            · intro m2' s2' h2'
              exact absurd h2' (by simp)
        · refine ⟨?_, ?_, ?_⟩
          · simp [get_adx_token, haz, h1, hlog, h2, countLogin]
          · simp [get_adx_token, haz, h1, hlog, h2, countLookup]
          · intro m' s' _ _ _
            refine ⟨by simp [get_adx_token, haz, h1, hlog, h2], ?_, ?_⟩
            · intro t' s2' h2'
              exact absurd h2' (by simp)
            · intro m2' s2' h2'
              injection h2' with hm _
              subst hm
              simp [get_adx_token, haz, h1, hlog, h2]
        · refine ⟨?_, ?_, ?_⟩
          · simp [get_adx_token, haz, h1, hlog, h2, countLogin]
          · simp [get_adx_token, haz, h1, hlog, h2, countLookup]
          · intro m' s' _ _ _
            refine ⟨by simp [get_adx_token, haz, h1, hlog, h2], ?_, ?_⟩
            · intro t' s2' h2'
              exact absurd h2' (by simp)
            · intro m2' s2' h2'
              exact absurd h2' (by simp)
      · refine ⟨?_, ?_, ?_⟩
        · simp [get_adx_token, haz, h1, hlog, countLogin]
        · simp [get_adx_token, haz, h1, hlog, countLookup]
        · intro m' s' _ _ hlog'
          exact absurd hlog' hlog
    · refine ⟨?_, ?_, ?_⟩
      · simp [get_adx_token, haz, h1, countLogin]
      · simp [get_adx_token, haz, h1, countLookup]
      · intro m' s' _ hcon
        exact absurd hcon (by simp)
  · refine ⟨?_, ?_, ?_⟩
    · simp [get_adx_token, haz, countLogin]
    · simp [get_adx_token, haz, countLookup]
    · intro m' s' haz' _ _
      exact absurd haz' haz

/-- Witness for C8: a failing first query, a successful login, and a
successful retry yield exactly the four-event trace and the token. -/
theorem claim_C8_wit :
    countLogin (get_adx_token wAuthEnv).2 ≤ 1
    ∧ (get_adx_token wAuthEnv).2
        = [AuthEvent.lookup, AuthEvent.login, AuthEvent.settle 1, AuthEvent.lookup]
    ∧ (get_adx_token wAuthEnv).1 = TokenResult.ok (Json.str "tok".data) := by
  have h := claim_C8 wAuthEnv
  have h3 := h.2.2 (azFallbackMsg ⟨1, [], []⟩) true rfl rfl rfl
  exact ⟨h.1, h3.1, h3.2.1 (Json.str "tok".data) false rfl⟩

/-- Counterexample to C2 as stated: the resource-mode invocation exits 0
but its JSON output `{}` lacks a token field, and the scope form is NOT
tried next (`scopeTried = false`) — the function returns the missing-field
error immediately — even though the scope-mode invocation would have
succeeded (its output extracts a token). -/
theorem claim_C2_cex :
    get_access_token_once ⟨0, ['{', '}'], []⟩ ⟨0, goodTokenJson, []⟩
      = OnceOutcome.err missingTokenMsg false
    ∧ (get_access_token_once ⟨0, ['{', '}'], []⟩ ⟨0, goodTokenJson, []⟩).scopeTried = false
    ∧ extractToken goodTokenJson = TokenExtract.tok (Json.str "tok".data) :=
  ⟨rfl, rfl, rfl⟩

/-- Claim C2 (amended): in the cached-token lookup the scope-parameter form is
tried exactly when the resource-form invocation exits with a non-zero
code — when it exits 0 with unusable JSON output the lookup fails without
trying the scope form — and on any successful form the token is the truthy
value found in the JSON output under the key 'accessToken', or else under
'access_token'. -/
theorem claim_C2_amended (r1 r2 : AzResult) :
    ((get_access_token_once r1 r2).scopeTried = decide (¬r1.code = 0))
    ∧ (∀ t s, get_access_token_once r1 r2 = OnceOutcome.ok t s →
        extractToken (if s then r2.out else r1.out) = TokenExtract.tok t)
    ∧ (∀ out t, extractToken out = TokenExtract.tok t →
        ∃ fs, Json.parse out = some (Json.obj fs)
          ∧ t = (if jTruthy ((lookupLast accessTokenKey fs).getD Json.null)
                then (lookupLast accessTokenKey fs).getD Json.null
                else (lookupLast access_tokenKey fs).getD Json.null)) := by
  refine ⟨?_, ?_, ?_⟩
  · by_cases h1 : r1.code = 0
    · rcases he : extractToken r1.out with t | _ | _ | _ <;>
        simp [get_access_token_once, h1, he, OnceOutcome.scopeTried]
    · by_cases h2 : r2.code = 0
      · rcases he : extractToken r2.out with t | _ | _ | _ <;>
          simp [get_access_token_once, h1, h2, he, OnceOutcome.scopeTried]
      · simp [get_access_token_once, h1, h2, OnceOutcome.scopeTried]
  · intro t s hok
    by_cases h1 : r1.code = 0
    · rcases he : extractToken r1.out with t2 | _ | _ | _ <;>
        simp [get_access_token_once, h1, he] at hok
      obtain ⟨rfl, rfl⟩ := hok
      simp [he]
    · by_cases h2 : r2.code = 0
      · rcases he : extractToken r2.out with t2 | _ | _ | _ <;>
          simp [get_access_token_once, h1, h2, he] at hok
        obtain ⟨rfl, rfl⟩ := hok
        simp [he]
      · simp [get_access_token_once, h1, h2] at hok
  · intro out t he
    rcases hp : Json.parse out with _ | v
    · simp [extractToken, hp] at he
    · cases v with
      | obj fs =>
        simp only [extractToken, hp] at he
        by_cases hA : jTruthy ((lookupLast accessTokenKey fs).getD Json.null) = true
        · simp only [hA, if_true] at he
          have he2 : TokenExtract.tok ((lookupLast accessTokenKey fs).getD Json.null)
              = TokenExtract.tok t := by simpa using he
          injection he2 with he3
          refine ⟨fs, rfl, ?_⟩
          rw [if_pos hA]
          exact he3.symm
        · have hA2 : jTruthy ((lookupLast accessTokenKey fs).getD Json.null) = false := by
            simpa using hA
          simp [hA2] at he
          by_cases hB : jTruthy ((lookupLast access_tokenKey fs).getD Json.null) = true
          · simp [hB] at he
            refine ⟨fs, rfl, ?_⟩
            rw [if_neg (by simp [hA2])]
            exact he.symm
          · have hB2 : jTruthy ((lookupLast access_tokenKey fs).getD Json.null) = false := by
              simpa using hB
            simp [hB2] at he
      | null => simp [extractToken, hp] at he
      | bool b => simp [extractToken, hp] at he
      | num n => simp [extractToken, hp] at he
      | str s => simp [extractToken, hp] at he
      | arr es => simp [extractToken, hp] at he

/-- Witness for the amended C2: a non-zero resource-form exit code leads to
the scope form being tried, and the token returned by the successful scope
form is extracted from its JSON output. -/
theorem claim_C2_amended_wit :
    (get_access_token_once ⟨1, [], []⟩ ⟨0, goodTokenJson, []⟩).scopeTried = true
    ∧ extractToken goodTokenJson = TokenExtract.tok (Json.str "tok".data) := by
  have h := claim_C2_amended ⟨1, [], []⟩ ⟨0, goodTokenJson, []⟩
  constructor
  · rw [h.1]
    rfl
  · have h2 := h.2.1 (Json.str "tok".data) true rfl
    simpa using h2
